import Mathlib

/-!
Verification of the labeled-array construction and dimension/coordinate
inference engine of `arviz/data/base.py` (`generate_dims_coords`,
`numpy_to_data_array`, `dict_to_dataset`, `make_attrs`).

Python dictionaries are modelled as insertion-ordered association lists
(`List (String × β)`); `d[k] = v` is `aset` (overwriting in place keeps the
key's position, a fresh key is appended, exactly as CPython dicts behave),
`d.get(k)` / `k in d` are `alookup` / `amem`, and `d.update(e)` is
`dictUpdate`.  Coordinate labels are modelled as integers (the inference
logic never inspects them, and all default coordinates are `arange` ranges).
-/

namespace Arviz

/-- First-match lookup in an association list (Python `d.get(k)` / `d[k]`). -/
def alookup {β : Type} : List (String × β) → String → Option β
  | [], _ => none
  | p :: rest, k => if p.1 = k then some p.2 else alookup rest k

/-- Python `k in d`. -/
def amem {β : Type} (m : List (String × β)) (k : String) : Bool :=
  (alookup m k).isSome

/-- Python `d[k] = v`: overwrite the first entry with key `k` in place,
or append a fresh entry at the end. -/
def aset {β : Type} : List (String × β) → String → β → List (String × β)
  | [], k, v => [(k, v)]
  | p :: rest, k, v => if p.1 = k then (k, v) :: rest else p :: aset rest k v

/-- Python `d.update(e)`: apply every entry of `e` to `d`, caller wins. -/
def dictUpdate {β : Type} (d e : List (String × β)) : List (String × β) :=
  e.foldl (fun acc p => aset acc p.1 p.2) d

/-- The keys of an association list, in order. -/
def akeys {β : Type} (m : List (String × β)) : List String :=
  m.map Prod.fst

/-!
Decimal string representations of distinct naturals are distinct.  This is
needed because the auto-generated dimension names `"<var_name>_dim_<idx>"`
(Python `"{var_name}_dim_{idx}".format(...)`) must be pairwise distinct for
distinct axis indices.  `dec10 n` is the digit list of `n` in base 10, shown
below to agree with core's fuel-based `Nat.toDigits`/`Nat.repr`.
-/

def dec10 (n : Nat) : List Char :=
  if h : n < 10 then [Nat.digitChar n]
  else dec10 (n / 10) ++ [Nat.digitChar (n % 10)]
decreasing_by exact Nat.div_lt_self (by omega) (by omega)

/-- Numeric value of a decimal digit character. -/
def digitVal (c : Char) : Nat := c.toNat - 48

/-- Value of a decimal digit string, most significant digit first. -/
def val10 (l : List Char) : Nat := l.foldl (fun a c => 10 * a + digitVal c) 0

/-! ## The embedded program (`arviz/data/base.py`) -/

/-- A coordinate map: dimension name to ordered coordinate labels. -/
abbrev Coords := List (String × List Int)

/-- A dims list as passed around in the Python code: entries may be `None`
placeholders. -/
abbrev DimList := List (Option String)

/-- The two non-fatal warnings the converters can emit (`warnings.warn`
with `SyntaxWarning`). -/
inductive Warn where
  | moreDims : Warn
  | moreChains : Warn
deriving DecidableEq, Repr

/-- Modelled from the spec: `utils.arange` (not under `src/`) produces the
default integer coordinate sequence `0, 1, ..., n-1`. -/
def arange (n : Nat) : List Int :=
  (List.range n).map Int.ofNat

/-- The auto-generated dimension name
`"{var_name}_dim_{idx}".format(var_name=var_name, idx=idx)`. -/
def dimName (var_name : String) (idx : Nat) : String :=
  var_name ++ "_dim_" ++ toString idx

/-- The `for idx, dim_len in enumerate(shape)` loop of `generate_dims_coords`
(base.py lines 93-102), carrying the running `dims` and `coords`. -/
def gdcLoop (var_name : String) : List Nat → Nat → DimList → Coords →
    DimList × Coords
  | [], _, dims, coords => (dims, coords)
  | dim_len :: rest, idx, dims, coords =>
    let dims :=
      if dims.length < idx + 1 ∨ dims.getD idx none = none then
        if dims.length < idx + 1 then dims ++ [some (dimName var_name idx)]
        else dims.set idx (some (dimName var_name idx))
      else dims
    let coords :=
      match dims.getD idx none with
      | some dim_name =>
          if amem coords dim_name then coords
          else aset coords dim_name (arange dim_len)
      | none => coords
    gdcLoop var_name rest (idx + 1) dims coords

/-- Result of `generate_dims_coords`, together with the warnings emitted. -/
structure GDC where
  dims : DimList
  coords : Coords
  warns : List Warn
deriving DecidableEq, Repr

/-- `generate_dims_coords(shape, var_name, dims=None, coords=None,
default_dims=None)` (base.py lines 41-104).  The deep copies of lines 90-91
are identity on pure values; object mutation is modelled separately by
`generate_dims_coords_st` below. -/
def generate_dims_coords (shape : List Nat) (var_name : String)
    (dims? : Option DimList := none) (coords? : Option Coords := none)
    (default_dims? : Option (List String) := none) : GDC :=
  let default_dims := default_dims?.getD []
  let dims := dims?.getD []
  let warns :=
    if shape.length <
        (dims.filter (fun d => decide (d ∉ default_dims.map some))).length then
      [Warn.moreDims]
    else []
  let coords := coords?.getD []
  let (dims, coords) := gdcLoop var_name shape 0 dims coords
  let coords := coords.filter (fun p => decide (some p.1 ∈ dims))
  ⟨dims, coords, warns⟩

/-- Modelled from the spec: `utils.two_de` (not under `src/`) reshapes a
rank-0/rank-1 array to rank 2 by prepending size-1 leading axes; arrays of
rank at least 2 are returned unchanged.  Arrays are represented by their
shapes, since the labelling logic never reads the numeric contents. -/
def two_de (shape : List Nat) : List Nat :=
  match shape with
  | [] => [1, 1]
  | [n] => [1, n]
  | s => s

/-- Lines 152-156 of base.py: prepend `"draw"` when missing, then prepend
`"chain"` when missing (the comment there says "reversed order for default
dims: 'chain', 'draw'"). -/
def insertReservedDims (dims : DimList) : DimList :=
  let dims := if some "draw" ∈ dims then dims else some "draw" :: dims
  if some "chain" ∈ dims then dims else some "chain" :: dims

/-- Failures of the final array construction: `KeyError` from the
coordinate dict comprehension of base.py line 164, and the two validation
errors of the labeled-array constructor. -/
inductive LErr where
  | keyError : Option String → LErr
  | dimsLenError : LErr
  | coordLenError : String → LErr
deriving DecidableEq, Repr

instance {ε α : Type} [DecidableEq ε] [DecidableEq α] :
    DecidableEq (Except ε α) := fun a b =>
  match a, b with
  | .error e, .error e' =>
    if h : e = e' then .isTrue (congrArg Except.error h)
    else .isFalse (fun hh => h (Except.error.inj hh))
  | .ok x, .ok y =>
    if h : x = y then .isTrue (congrArg Except.ok h)
    else .isFalse (fun hh => h (Except.ok.inj hh))
  | .error _, .ok _ => .isFalse (fun hh => Except.noConfusion hh)
  | .ok _, .error _ => .isFalse (fun hh => Except.noConfusion hh)

/-- The self-describing labeled array produced on success
(an `xarray.DataArray` stripped to shape, dims and coordinates). -/
structure LabeledArray where
  shape : List Nat
  dims : List String
  coords : Coords
deriving DecidableEq, Repr

/-- The dict comprehension of base.py line 164:
`{key: xr.IndexVariable((key,), data=coords[key]) for key in dims}`.
Walks `dims` in order, raising `KeyError` for a `None` entry or a missing
coordinate, and otherwise building the final coordinate dict (duplicate keys
collapse to the first occurrence, as in a Python dict) together with the
dims as plain strings. -/
def buildXrCoords (coords : Coords) : DimList → Coords →
    Except LErr (List String × Coords)
  | [], acc => .ok ([], acc)
  | none :: _, _ => .error (.keyError none)
  | some k :: rest, acc =>
    match alookup coords k with
    | none => .error (.keyError (some k))
    | some v =>
      match buildXrCoords coords rest (aset acc k v) with
      | .ok (ns, ic) => .ok (k :: ns, ic)
      | .error e => .error e

/-- Modelled from the spec: the final array-construction primitive
(`xr.DataArray(ary, coords=coords, dims=dims)`, external to `src/`), which
fails when the number of dims differs from the array's rank, and with a
CoordinateLengthError when some dimension's coordinate sequence length
differs from the length of the axis it indexes. -/
def mkLabeledArray (shape : List Nat) (names : List String) (ic : Coords) :
    Except LErr LabeledArray :=
  if names.length = shape.length then
    match (names.zip shape).find?
        (fun p => decide (¬((alookup ic p.1).getD []).length = p.2)) with
    | some p => .error (.coordLenError p.1)
    | none => .ok ⟨shape, names, ic⟩
  else .error .dimsLenError

/-- Lines 136-161 of `numpy_to_data_array`: normalize the rank, emit the
chains/draws warning, infer the trailing dims/coords, and normalize the
reserved `"chain"`/`"draw"` dims and default coordinates.  Returns the
`dims` and `coords` that reach the final array construction, along with the
warnings emitted so far. -/
def n2daPrep (ary : List Nat) (var_name : String) (coords? : Option Coords)
    (dims? : Option DimList) : DimList × Coords × List Warn :=
  let s := two_de ary
  let n_chains := s.headD 0
  let n_samples := s.tail.headD 0
  let shape := s.drop 2
  let chainWarns := if n_samples < n_chains then [Warn.moreChains] else []
  let g := generate_dims_coords shape var_name dims? coords?
    (some ["chain", "draw"])
  let dims := insertReservedDims g.dims
  let coords :=
    if amem g.coords "chain" then g.coords
    else aset g.coords "chain" (arange n_chains)
  let coords :=
    if amem coords "draw" then coords
    else aset coords "draw" (arange n_samples)
  (dims, coords, chainWarns ++ g.warns)

/-- `numpy_to_data_array(ary, var_name="data", coords=None, dims=None)`
(base.py lines 107-165).  Returns the constructed array (or the error that
propagates) together with the warnings emitted. -/
def numpy_to_data_array (ary : List Nat) (var_name : String := "data")
    (coords? : Option Coords := none) (dims? : Option DimList := none) :
    Except LErr LabeledArray × List Warn :=
  let s := two_de ary
  let pc := n2daPrep ary var_name coords? dims?
  (match buildXrCoords pc.2.1 pc.1 [] with
   | .error e => .error e
   | .ok (names, ic) => mkLabeledArray s names ic,
   pc.2.2)

/-- String-valued attribute record attached to a dataset. -/
abbrev Attrs := List (String × String)

/-- The `library` argument of `make_attrs`/`dict_to_dataset`: an inference
module, with the results of the two external version probes
(`pkg_resources.get_distribution(...).version` and `library.__version__`)
modelled as optional fields. -/
structure Library where
  name : String
  distVersion : Option String
  attrVersion : Option String
deriving DecidableEq, Repr

/-- `make_attrs(attrs=None, library=None)` (base.py lines 205-232).  `now`
is the value of `datetime.datetime.utcnow().isoformat()`, an input of the
ambient clock. -/
def make_attrs (now : String) (attrs? : Option Attrs := none)
    (library? : Option Library := none) : Attrs :=
  let default_attrs : Attrs := [("created_at", now)]
  let default_attrs :=
    match library? with
    | none => default_attrs
    | some library =>
      let default_attrs := aset default_attrs "inference_library" library.name
      match library.distVersion with
      | some version => aset default_attrs "inference_library_version" version
      | none =>
        match library.attrVersion with
        | some version =>
            aset default_attrs "inference_library_version" version
        | none => default_attrs
  match attrs? with
  | none => default_attrs
  | some attrs => dictUpdate default_attrs attrs

/-- The labeled dataset produced by `dict_to_dataset`: the per-variable
labeled arrays (insertion-ordered, as a Python dict) and the attribute
record. -/
structure Dataset where
  data_vars : List (String × LabeledArray)
  attrs : Attrs
deriving DecidableEq, Repr

/-- The `for key, values in data.items()` loop of `dict_to_dataset`
(base.py lines 197-201): label each variable in order, propagating the
first error and accumulating warnings. -/
def assembleVars (coords? : Option Coords)
    (dims : List (String × DimList)) :
    List (String × List Nat) → List (String × LabeledArray) → List Warn →
    Except LErr (List (String × LabeledArray)) × List Warn
  | [], acc, ws => (.ok acc, ws)
  | (key, values) :: rest, acc, ws =>
    match numpy_to_data_array values key coords? (alookup dims key) with
    | (.ok la, w) => assembleVars coords? dims rest (aset acc key la) (ws ++ w)
    | (.error e, w) => (.error e, ws ++ w)

/-- `dict_to_dataset(data, attrs=None, library=None, coords=None, dims=None)`
(base.py lines 168-202).  Arrays are represented by their shapes. -/
def dict_to_dataset (now : String) (data : List (String × List Nat))
    (attrs? : Option Attrs := none) (library? : Option Library := none)
    (coords? : Option Coords := none)
    (dims? : Option (List (String × DimList)) := none) :
    Except LErr Dataset × List Warn :=
  let dims := dims?.getD []
  match assembleVars coords? dims data [] [] with
  | (.ok data_vars, ws) => (.ok ⟨data_vars, make_attrs now attrs? library?⟩, ws)
  | (.error e, ws) => (.error e, ws)

/-! ## Claim C8: an object-store model of the deep-copy discipline

To state non-mutation of the caller's `dims`/`coords` objects, the Python
heap is modelled by two stores (one for list objects, one for dict
objects), with object identity as store index.  `generate_dims_coords_st`
re-runs `generate_dims_coords` against the stores: it reads the inputs from
their references, allocates fresh objects for the deep copies of lines
90-91, and the loop then performs every in-place update (`dims.append`,
`dims[idx] = ...`, `coords[...] = ...`) at the fresh references only.
An iteration that changes nothing writes the unchanged value back, which is
heap-equivalent.  The claim theorem shows the caller's objects are intact
after the call and that the store run computes the same result as the pure
function. -/

/-- One iteration of the loop on `dims` (base.py lines 94-99). -/
def gdcStepDims (var_name : String) (idx : Nat) (dims : DimList) : DimList :=
  if dims.length < idx + 1 ∨ dims.getD idx none = none then
    if dims.length < idx + 1 then dims ++ [some (dimName var_name idx)]
    else dims.set idx (some (dimName var_name idx))
  else dims

/-- One iteration of the loop on `coords` (base.py lines 100-102). -/
def gdcStepCoords (dim_len : Nat) (dims : DimList) (idx : Nat)
    (coords : Coords) : Coords :=
  match dims.getD idx none with
  | some dim_name =>
      if amem coords dim_name then coords
      else aset coords dim_name (arange dim_len)
  | none => coords

/-- The loop of `generate_dims_coords`, operating on the object stores:
every write targets the references `rd`/`rc` it was given. -/
def gdcLoopSt (var_name : String) : List Nat → Nat → Nat → Nat →
    List DimList → List Coords → List DimList × List Coords
  | [], _, _, _, σd, σc => (σd, σc)
  | dim_len :: rest, idx, rd, rc, σd, σc =>
    let σd' := σd.set rd (gdcStepDims var_name idx (σd.getD rd []))
    let σc' := σc.set rc
      (gdcStepCoords dim_len (σd'.getD rd []) idx (σc.getD rc []))
    gdcLoopSt var_name rest (idx + 1) rd rc σd' σc'

/-- `generate_dims_coords` run against the object stores: the inputs are
references `rd`/`rc` into the stores; the deep copies of lines 90-91 are
fresh allocations at the end of each store, and all subsequent writes go to
those fresh references. -/
def generate_dims_coords_st (shape : List Nat) (var_name : String)
    (rd rc : Nat) (σd : List DimList) (σc : List Coords)
    (default_dims? : Option (List String)) :
    List DimList × List Coords × GDC :=
  let default_dims := default_dims?.getD []
  let dims := σd.getD rd []
  let warns :=
    if shape.length <
        (dims.filter (fun d => decide (d ∉ default_dims.map some))).length then
      [Warn.moreDims]
    else []
  let coords := σc.getD rc []
  -- deepcopy: allocate fresh objects holding copies of the inputs
  let rd' := σd.length
  let σd := σd ++ [dims]
  let rc' := σc.length
  let σc := σc ++ [coords]
  let (σd, σc) := gdcLoopSt var_name shape 0 rd' rc' σd σc
  let dims := σd.getD rd' []
  let coords := (σc.getD rc' []).filter (fun p => decide (some p.1 ∈ dims))
  (σd, σc, ⟨dims, coords, warns⟩)

/-! ## Claim C9 -/

/-- A concrete two-variable input used to witness the dataset-assembly
claim. -/
def sampleData : List (String × List Nat) := [("x", [2, 3]), ("y", [4, 5])]

theorem akeys_nil {β : Type} : akeys ([] : List (String × β)) = [] := rfl

theorem akeys_cons {β : Type} (p : String × β) (rest : List (String × β)) :
    akeys (p :: rest) = p.1 :: akeys rest := rfl

theorem alookup_aset_self {β : Type} (m : List (String × β)) (k : String) (v : β) :
    alookup (aset m k v) k = some v := by
  induction m with
  | nil => simp [aset, alookup]
  | cons p rest ih =>
    by_cases h : p.1 = k
    · simp [aset, h, alookup]
    · simp [aset, h, alookup, ih]

theorem alookup_aset_ne {β : Type} (m : List (String × β)) (k k' : String) (v : β)
    (h : k' ≠ k) : alookup (aset m k v) k' = alookup m k' := by
  induction m with
  | nil => simp [aset, alookup, Ne.symm h]
  | cons p rest ih =>
    by_cases hp : p.1 = k
    · have hpk : p.1 ≠ k' := by rw [hp]; exact Ne.symm h
      simp [aset, hp, alookup, Ne.symm h, hpk]
    · simp [aset, hp, alookup, ih]

theorem aset_of_not_mem {β : Type} (m : List (String × β)) (k : String) (v : β)
    (h : alookup m k = none) : aset m k v = m ++ [(k, v)] := by
  induction m with
  | nil => simp [aset]
  | cons p rest ih =>
    by_cases hp : p.1 = k
    · simp [alookup, hp] at h
    · simp [alookup, hp] at h
      simp [aset, hp, ih h]

theorem alookup_append {β : Type} (m m' : List (String × β)) (k : String) :
    alookup (m ++ m') k = ((alookup m k).or (alookup m' k)) := by
  induction m with
  | nil => simp [alookup]
  | cons p rest ih =>
    by_cases hp : p.1 = k
    · simp [alookup, hp]
    · simp [alookup, hp, ih]

theorem mem_akeys_aset {β : Type} (m : List (String × β)) (k k' : String) (v : β) :
    k' ∈ akeys (aset m k v) ↔ k' ∈ akeys m ∨ k' = k := by
  induction m with
  | nil => simp [aset, akeys]
  | cons p rest ih =>
    by_cases hp : p.1 = k
    · rw [aset, if_pos hp, akeys_cons, akeys_cons]
      simp only [List.mem_cons, hp]
      tauto
    · rw [aset, if_neg hp, akeys_cons, akeys_cons]
      simp only [List.mem_cons, ih]
      tauto

theorem akeys_nodup_aset {β : Type} (m : List (String × β)) (k : String) (v : β)
    (h : (akeys m).Nodup) : (akeys (aset m k v)).Nodup := by
  induction m with
  | nil => simp [aset, akeys]
  | cons p rest ih =>
    rw [akeys_cons, List.nodup_cons] at h
    by_cases hp : p.1 = k
    · rw [aset, if_pos hp, akeys_cons, List.nodup_cons]
      exact ⟨by rw [← hp]; exact h.1, h.2⟩
    · rw [aset, if_neg hp, akeys_cons, List.nodup_cons]
      refine ⟨fun hc => ?_, ih h.2⟩
      rcases (mem_akeys_aset rest k p.1 v).mp hc with h' | h'
      · exact h.1 h'
      · exact hp h'

theorem alookup_isSome_iff_mem_akeys {β : Type} (m : List (String × β)) (k : String) :
    (alookup m k).isSome ↔ k ∈ akeys m := by
  induction m with
  | nil => simp [alookup, akeys]
  | cons p rest ih =>
    by_cases hp : p.1 = k
    · simp [alookup, hp, akeys_cons]
    · rw [akeys_cons]
      simp only [alookup, if_neg hp, List.mem_cons, ih]
      have hkp : ¬k = p.1 := fun hh => hp hh.symm
      tauto

theorem alookup_filter_key {β : Type} (m : List (String × β)) (q : String → Bool)
    (k : String) :
    alookup (m.filter (fun p => q p.1)) k = if q k then alookup m k else none := by
  induction m with
  | nil => simp [alookup]
  | cons p rest ih =>
    by_cases hp : p.1 = k
    · subst hp
      by_cases hq : q p.1
      · simp [List.filter_cons, hq, alookup, ih]
      · simp [List.filter_cons, hq, alookup, ih]
    · by_cases hq : q p.1
      · simp [List.filter_cons, hq, alookup, hp, ih]
      · simp [List.filter_cons, hq, alookup, hp, ih]

theorem dec10_unfold (n : Nat) :
    dec10 n = if n < 10 then [Nat.digitChar n]
      else dec10 (n / 10) ++ [Nat.digitChar (n % 10)] := by
  rw [dec10]
  by_cases h : n < 10 <;> simp [h]

theorem toDigitsCore_eq_dec10 :
    ∀ (f n : Nat) (acc : List Char), n < f →
      Nat.toDigitsCore 10 f n acc = dec10 n ++ acc := by
  intro f
  induction f with
  | zero => intro n acc h; omega
  | succ f ih =>
    intro n acc h
    rw [Nat.toDigitsCore]
    by_cases hz : n / 10 = 0
    · have hn : n < 10 := by omega
      rw [if_pos hz, dec10_unfold, if_pos hn, Nat.mod_eq_of_lt hn]
      rfl
    · have hn : ¬n < 10 := by omega
      rw [if_neg hz, ih (n / 10) _ (by omega), dec10_unfold n, if_neg hn,
        List.append_assoc]
      rfl

theorem repr_eq_dec10 (n : Nat) : Nat.repr n = (dec10 n).asString := by
  have h : Nat.toDigits 10 n = dec10 n := by
    rw [Nat.toDigits, toDigitsCore_eq_dec10 (n + 1) n [] (Nat.lt_succ_self n),
      List.append_nil]
  rw [Nat.repr, h]

theorem digitVal_digitChar : ∀ m, m < 10 → digitVal (Nat.digitChar m) = m := by
  decide

theorem val10_append_digit (l : List Char) (c : Char) :
    val10 (l ++ [c]) = 10 * val10 l + digitVal c := by
  simp [val10, List.foldl_append]

theorem val10_dec10 : ∀ n, val10 (dec10 n) = n := by
  intro n
  induction n using Nat.strong_induction_on with
  | _ n ih =>
    by_cases h : n < 10
    · rw [dec10_unfold, if_pos h]
      simp [val10, digitVal_digitChar n h]
    · rw [dec10_unfold, if_neg h, val10_append_digit,
        ih (n / 10) (Nat.div_lt_self (by omega) (by omega)),
        digitVal_digitChar (n % 10) (Nat.mod_lt n (by omega))]
      omega

theorem dec10_injective (a b : Nat) (h : dec10 a = dec10 b) : a = b := by
  have := val10_dec10 a
  rw [h, val10_dec10 b] at this
  omega

theorem dec10_ne_nil (n : Nat) : dec10 n ≠ [] := by
  rw [dec10_unfold]
  by_cases h : n < 10 <;> simp [h]

theorem repr_data (n : Nat) : (Nat.repr n).data = dec10 n := by
  rw [repr_eq_dec10]
  rfl

theorem repr_length_pos (n : Nat) : 1 ≤ (Nat.repr n).length := by
  have h := dec10_ne_nil n
  have : (Nat.repr n).length = (dec10 n).length := by
    rw [String.length, repr_data]
  rw [this]
  cases hd : dec10 n with
  | nil => exact absurd hd h
  | cons c cs => simp

/-! ## List index helpers -/

theorem getD_append_lt {α : Type} (l l' : List α) (i : Nat) (d : α)
    (h : i < l.length) : (l ++ l').getD i d = l.getD i d := by
  induction l generalizing i with
  | nil => simp at h
  | cons a rest ih =>
    cases i with
    | zero => rfl
    | succ i =>
      simp only [List.length_cons] at h
      simpa [List.getD_cons_succ] using ih i (by omega)

theorem getD_append_self_length {α : Type} (l : List α) (x d : α) :
    (l ++ [x]).getD l.length d = x := by
  induction l with
  | nil => rfl
  | cons a rest ih => simpa [List.getD_cons_succ] using ih

theorem getD_set_self {α : Type} (l : List α) (i : Nat) (v d : α)
    (h : i < l.length) : (l.set i v).getD i d = v := by
  induction l generalizing i with
  | nil => simp at h
  | cons a rest ih =>
    cases i with
    | zero => rfl
    | succ i =>
      simp only [List.length_cons] at h
      simpa [List.set_cons_succ, List.getD_cons_succ] using ih i (by omega)

theorem getD_set_ne {α : Type} (l : List α) (i j : Nat) (v d : α)
    (h : j ≠ i) : (l.set i v).getD j d = l.getD j d := by
  induction l generalizing i j with
  | nil => simp [List.set]
  | cons a rest ih =>
    cases i with
    | zero =>
      cases j with
      | zero => exact absurd rfl h
      | succ j => rfl
    | succ i =>
      cases j with
      | zero => rfl
      | succ j =>
        simpa [List.set_cons_succ, List.getD_cons_succ] using
          ih i j (fun hh => h (by omega))

theorem mem_of_getD_eq {α : Type} [DecidableEq α] (l : List α) (i : Nat) (d a : α)
    (hi : i < l.length) (h : l.getD i d = a) : a ∈ l := by
  induction l generalizing i with
  | nil => simp at hi
  | cons b rest ih =>
    cases i with
    | zero =>
      simp only [List.getD_cons_zero] at h
      exact h ▸ List.mem_cons_self b rest
    | succ i =>
      simp only [List.length_cons] at hi
      simp only [List.getD_cons_succ] at h
      exact List.mem_cons_of_mem b (ih i (by omega) h)

theorem mem_iff_exists_getD {α : Type} (l : List α) (a d : α) :
    a ∈ l ↔ ∃ i, i < l.length ∧ l.getD i d = a := by
  constructor
  · intro h
    induction l with
    | nil => simp at h
    | cons b rest ih =>
      rcases List.mem_cons.mp h with h | h
      · exact ⟨0, by simp, by simp [h.symm]⟩
      · rcases ih h with ⟨i, hi, hg⟩
        exact ⟨i + 1, by simp [Nat.succ_lt_succ hi],
          by simp only [List.getD_cons_succ]; exact hg⟩
  · rintro ⟨i, hi, hg⟩
    induction l generalizing i with
    | nil => simp at hi
    | cons b rest ih =>
      cases i with
      | zero => simp only [List.getD_cons_zero] at hg; simp [hg]
      | succ i =>
        simp only [List.length_cons] at hi
        simp only [List.getD_cons_succ] at hg
        exact List.mem_cons_of_mem b (ih i (by omega) hg)

theorem enumFrom_fst_ge {α : Type} :
    ∀ (l : List α) (n : Nat) (p : Nat × α), p ∈ List.enumFrom n l → n ≤ p.1 := by
  intro l
  induction l with
  | nil => intro n p h; simp [List.enumFrom] at h
  | cons a rest ih =>
    intro n p h
    rcases List.mem_cons.mp h with h | h
    · subst h; exact Nat.le_refl n
    · exact Nat.le_of_succ_le (ih (n + 1) p h)

/-! ## Distinctness of auto-generated dimension names -/

theorem toString_nat_eq_repr (n : Nat) : toString n = Nat.repr n := rfl

theorem dimName_inj (v : String) (i j : Nat) (h : dimName v i = dimName v j) :
    i = j := by
  have hd := congrArg String.data h
  simp only [dimName, String.data_append, toString_nat_eq_repr,
    List.append_assoc] at hd
  have h1 := List.append_cancel_left hd
  have h2 := List.append_cancel_left h1
  rw [repr_data, repr_data] at h2
  exact dec10_injective i j h2

theorem dimName_length (v : String) (i : Nat) :
    (dimName v i).length = v.length + 5 + (Nat.repr i).length := by
  simp only [dimName, String.length_append, toString_nat_eq_repr]
  rfl

theorem dimName_ne_chain (v : String) (i : Nat) : dimName v i ≠ "chain" := by
  intro h
  have hl := congrArg String.length h
  rw [dimName_length] at hl
  have h5 : ("chain" : String).length = 5 := rfl
  have := repr_length_pos i
  omega

theorem dimName_ne_draw (v : String) (i : Nat) : dimName v i ≠ "draw" := by
  intro h
  have hl := congrArg String.length h
  rw [dimName_length] at hl
  have h4 : ("draw" : String).length = 4 := rfl
  have := repr_length_pos i
  omega

theorem amem_append_single_ne {β : Type} (m : List (String × β)) (k k' : String)
    (v : β) (h : k' ≠ k) : amem (m ++ [(k', v)]) k = amem m k := by
  rw [amem, amem, alookup_append]
  have : alookup [(k', v)] k = none := by simp [alookup, h]
  rw [this]
  cases alookup m k <;> rfl

/-- Characterization of the `for idx, dim_len in enumerate(shape)` loop of
`generate_dims_coords` when it starts at index `idx` with a dims list of
exactly `idx` entries (the auto-naming regime): every remaining axis gets
the auto name `dimName var_name i`, and a default `arange` coordinate entry
is appended for every such name not already present in `coords`. -/
theorem gdcLoop_auto (var_name : String) :
    ∀ (S : List Nat) (idx : Nat) (D : DimList) (C : Coords),
      D.length = idx →
      gdcLoop var_name S idx D C =
        (D ++ (S.enumFrom idx).map (fun p => some (dimName var_name p.1)),
         C ++ ((S.enumFrom idx).filter
            (fun p => !amem C (dimName var_name p.1))).map
            (fun p => (dimName var_name p.1, arange p.2))) := by
  intro S
  induction S with
  | nil =>
    intro idx D C hD
    simp [gdcLoop, List.enumFrom]
  | cons l rest ih =>
    intro idx D C hD
    subst hD
    rw [gdcLoop]
    have hc1 : D.length < D.length + 1 ∨ D.getD D.length none = none :=
      Or.inl (by omega)
    rw [if_pos hc1, if_pos (by omega : D.length < D.length + 1)]
    rw [getD_append_self_length D (some (dimName var_name D.length)) none]
    have hlen1 : (D ++ [some (dimName var_name D.length)]).length =
        D.length + 1 := by simp
    have hred : (match some (dimName var_name D.length) with
        | some dim_name =>
            if amem C dim_name = true then C else aset C dim_name (arange l)
        | none => C) =
        if amem C (dimName var_name D.length) = true then C
        else aset C (dimName var_name D.length) (arange l) := rfl
    rw [hred]
    by_cases hmem : amem C (dimName var_name D.length)
    · rw [if_pos hmem, ih (D.length + 1) _ C hlen1]
      rw [List.enumFrom]
      simp [List.filter_cons, hmem, List.append_assoc]
    · rw [if_neg hmem]
      have hmem' : amem C (dimName var_name D.length) = false := by
        simpa using hmem
      have hnone : alookup C (dimName var_name D.length) = none := by
        rw [amem] at hmem'
        exact Option.not_isSome_iff_eq_none.mp (by simp [hmem'])
      rw [aset_of_not_mem C _ _ hnone]
      rw [ih (D.length + 1) _ _ hlen1]
      rw [List.enumFrom]
      have hfc : (List.enumFrom (D.length + 1) rest).filter
            (fun p => !amem (C ++ [(dimName var_name D.length, arange l)])
              (dimName var_name p.1)) =
          (List.enumFrom (D.length + 1) rest).filter
            (fun p => !amem C (dimName var_name p.1)) := by
        apply List.filter_congr
        intro p hp
        have hge := enumFrom_fst_ge rest (D.length + 1) p hp
        have hne : dimName var_name p.1 ≠ dimName var_name D.length := by
          intro hh
          have := dimName_inj var_name p.1 D.length hh
          omega
        rw [amem_append_single_ne C _ _ _ (Ne.symm hne)]
      rw [hfc]
      simp [List.filter_cons, hmem', List.append_assoc]

theorem akeys_filter_key {β : Type} (m : List (String × β)) (q : String → Bool) :
    akeys (m.filter (fun p => q p.1)) = (akeys m).filter q := by
  induction m with
  | nil => rfl
  | cons p rest ih =>
    rw [List.filter_cons]
    by_cases h : q p.1
    · rw [if_pos h, akeys_cons, akeys_cons, ih, List.filter_cons, if_pos h]
    · rw [if_neg h, akeys_cons, ih, List.filter_cons, if_neg h]

theorem alookup_aset_isSome {β : Type} (m : List (String × β)) (k k' : String)
    (v : β) (h : (alookup m k).isSome) : (alookup (aset m k' v) k).isSome := by
  by_cases hk : k = k'
  · subst hk; rw [alookup_aset_self]; rfl
  · rw [alookup_aset_ne m k' k v hk]; exact h

/-- The loop never shrinks `dims`: its final length is the maximum of the
initial length and the number of axes processed. -/
theorem gdcLoop_length (var_name : String) :
    ∀ (S : List Nat) (idx : Nat) (D : DimList) (C : Coords),
      idx ≤ D.length →
      (gdcLoop var_name S idx D C).1.length = max D.length (idx + S.length) := by
  intro S
  induction S with
  | nil =>
    intro idx D C h
    simp only [gdcLoop, List.length_nil]
    omega
  | cons l rest ih =>
    intro idx D C h
    rw [gdcLoop]
    by_cases hA : D.length < idx + 1
    · rw [if_pos (Or.inl hA), if_pos hA]
      rw [ih (idx + 1) _ _ (by simp; omega)]
      simp only [List.length_append, List.length_cons, List.length_nil]
      omega
    · have hle : idx + 1 ≤ D.length := by omega
      by_cases hB : D.getD idx none = none
      · rw [if_pos (Or.inr hB), if_neg hA]
        rw [ih (idx + 1) _ _ (by simp [hle])]
        simp only [List.length_set, List.length_cons]
        omega
      · rw [if_neg (by tauto)]
        rw [ih (idx + 1) _ _ hle]
        simp only [List.length_cons]
        omega

/-- The loop preserves key-uniqueness of the coordinate map. -/
theorem gdcLoop_nodup_keys (var_name : String) :
    ∀ (S : List Nat) (idx : Nat) (D : DimList) (C : Coords),
      (akeys C).Nodup → (akeys (gdcLoop var_name S idx D C).2).Nodup := by
  intro S
  induction S with
  | nil => intro idx D C h; exact h
  | cons l rest ih =>
    intro idx D C h
    rw [gdcLoop]
    apply ih
    cases hg : (if D.length < idx + 1 ∨ D.getD idx none = none then
        if D.length < idx + 1 then D ++ [some (dimName var_name idx)]
        else D.set idx (some (dimName var_name idx))
      else D).getD idx none with
    | none => simpa [hg] using h
    | some dim_name =>
      simp only [hg]
      by_cases hm : amem C dim_name
      · simpa [hm] using h
      · simp only [hm, Bool.false_eq_true, if_neg (by simp : ¬False)]
        exact akeys_nodup_aset C dim_name (arange l) h

/-- After the loop, every dims position below the final length holds a
(non-null) name that has an entry in the final coordinate map, provided
every position below the starting index already did, and provided the loop
will process every position of the initial dims list. -/
theorem gdcLoop_cover (var_name : String) :
    ∀ (S : List Nat) (idx : Nat) (D : DimList) (C : Coords),
      idx ≤ D.length → D.length ≤ idx + S.length →
      (∀ i, i < idx → ∃ k, D.getD i none = some k ∧ (alookup C k).isSome) →
      ∀ i, i < (gdcLoop var_name S idx D C).1.length →
        ∃ k, (gdcLoop var_name S idx D C).1.getD i none = some k ∧
          (alookup (gdcLoop var_name S idx D C).2 k).isSome := by
  intro S
  induction S with
  | nil =>
    intro idx D C h1 h2 inv i hi
    simp only [gdcLoop] at hi ⊢
    exact inv i (by simp at h2; omega)
  | cons l rest ih =>
    intro idx D C h1 h2 inv i hi
    rw [gdcLoop] at hi ⊢
    set D₁ := (if D.length < idx + 1 ∨ D.getD idx none = none then
        if D.length < idx + 1 then D ++ [some (dimName var_name idx)]
        else D.set idx (some (dimName var_name idx))
      else D) with hD₁
    set C₁ := (match D₁.getD idx none with
      | some dim_name =>
          if amem C dim_name = true then C else aset C dim_name (arange l)
      | none => C) with hC₁
    have hidx : ∃ k, D₁.getD idx none = some k := by
      by_cases hA : D.length < idx + 1
      · have hDlen : D.length = idx := by omega
        rw [hD₁, if_pos (Or.inl hA), if_pos hA, ← hDlen,
          getD_append_self_length]
        exact ⟨_, rfl⟩
      · by_cases hB : D.getD idx none = none
        · rw [hD₁, if_pos (Or.inr hB), if_neg hA]
          rw [getD_set_self D idx _ none (by omega)]
          exact ⟨_, rfl⟩
        · rw [hD₁, if_neg (by tauto)]
          cases hg : D.getD idx none with
          | none => exact absurd hg hB
          | some k => exact ⟨k, rfl⟩
    have hD₁lenlb : idx + 1 ≤ D₁.length := by
      by_cases hA : D.length < idx + 1
      · rw [hD₁, if_pos (Or.inl hA), if_pos hA]
        simp
        omega
      · by_cases hB : D.getD idx none = none
        · rw [hD₁, if_pos (Or.inr hB), if_neg hA]
          simp
          omega
        · rw [hD₁, if_neg (by tauto)]
          omega
    have hD₁lenub : D₁.length ≤ idx + 1 + rest.length := by
      by_cases hA : D.length < idx + 1
      · rw [hD₁, if_pos (Or.inl hA), if_pos hA]
        simp
        omega
      · simp only [List.length_cons] at h2
        by_cases hB : D.getD idx none = none
        · rw [hD₁, if_pos (Or.inr hB), if_neg hA]
          simp
          omega
        · rw [hD₁, if_neg (by tauto)]
          omega
    have hpres : ∀ i, i < idx → D₁.getD i none = D.getD i none := by
      intro i hi'
      by_cases hA : D.length < idx + 1
      · have hDlen : D.length = idx := by omega
        rw [hD₁, if_pos (Or.inl hA), if_pos hA]
        exact getD_append_lt D _ i none (by omega)
      · by_cases hB : D.getD idx none = none
        · rw [hD₁, if_pos (Or.inr hB), if_neg hA]
          exact getD_set_ne D idx i _ none (by omega)
        · rw [hD₁, if_neg (by tauto)]
    have hCpres : ∀ k, (alookup C k).isSome → (alookup C₁ k).isSome := by
      intro k hk
      rcases hidx with ⟨nm, hnm⟩
      rw [hC₁, hnm]
      by_cases hm : amem C nm
      · simpa [hm] using hk
      · simp only [hm, Bool.false_eq_true, if_neg (by simp : ¬False)]
        exact alookup_aset_isSome C k nm (arange l) hk
    have hCidx : ∀ nm, D₁.getD idx none = some nm → (alookup C₁ nm).isSome := by
      intro nm hnm
      rw [hC₁, hnm]
      by_cases hm : amem C nm
      · have hm' : (alookup C nm).isSome = true := hm
        simp [amem, hm']
      · have hm' : amem C nm = false := by simpa using hm
        simp only [hm', Bool.false_eq_true, if_neg (by simp : ¬False)]
        rw [alookup_aset_self]
        rfl
    have inv₁ : ∀ i, i < idx + 1 →
        ∃ k, D₁.getD i none = some k ∧ (alookup C₁ k).isSome := by
      intro i hi'
      by_cases hieq : i = idx
      · subst hieq
        rcases hidx with ⟨nm, hnm⟩
        exact ⟨nm, hnm, hCidx nm hnm⟩
      · have hilt : i < idx := by omega
        rcases inv i hilt with ⟨k, hk1, hk2⟩
        exact ⟨k, by rw [hpres i hilt]; exact hk1, hCpres k hk2⟩
    exact ih (idx + 1) D₁ C₁ hD₁lenlb hD₁lenub inv₁ i hi

/-! ## Characterization of the final construction stage -/

/-- Everything a successful run of the coordinate dict comprehension
guarantees: the dims were all non-null and are returned as plain strings;
the built dict maps every dim name to its coordinate from `coords` and
leaves other keys as in the accumulator; its keys are exactly the
accumulator's keys plus the dim names; key-uniqueness is preserved. -/
theorem buildXrCoords_ok_spec (coords : Coords) :
    ∀ (dims : DimList) (acc : Coords) (ns : List String) (ic : Coords),
      buildXrCoords coords dims acc = .ok (ns, ic) →
      dims = ns.map some ∧
        (∀ k, some k ∈ dims → alookup ic k = alookup coords k) ∧
        (∀ k, ¬some k ∈ dims → alookup ic k = alookup acc k) ∧
        (∀ k, k ∈ akeys ic ↔ k ∈ akeys acc ∨ some k ∈ dims) ∧
        ((akeys acc).Nodup → (akeys ic).Nodup) := by
  intro dims
  induction dims with
  | nil =>
    intro acc ns ic h
    simp only [buildXrCoords, Except.ok.injEq, Prod.mk.injEq] at h
    obtain ⟨h1, h2⟩ := h
    subst h1; subst h2
    refine ⟨rfl, ?_, ?_, ?_, fun hh => hh⟩
    · intro k hk; simp at hk
    · intro k _; rfl
    · intro k; simp
  | cons d rest ih =>
    intro acc ns ic h
    cases d with
    | none => rw [buildXrCoords] at h; exact absurd h (by simp)
    | some k =>
      rw [buildXrCoords] at h
      cases hl : alookup coords k with
      | none => simp only [hl] at h; exact absurd h (by simp)
      | some v =>
        simp only [hl] at h
        cases hb : buildXrCoords coords rest (aset acc k v) with
        | error e => simp only [hb] at h; exact absurd h (by simp)
        | ok pair =>
          obtain ⟨ns', ic'⟩ := pair
          simp only [hb, Except.ok.injEq, Prod.mk.injEq] at h
          obtain ⟨h1, h2⟩ := h
          subst h1; subst h2
          obtain ⟨ihnames, ihval1, ihval2, ihkeys, ihnd⟩ :=
            ih (aset acc k v) ns' ic' hb
          refine ⟨?_, ?_, ?_, ?_, ?_⟩
          · rw [List.map_cons, ← ihnames]
          · intro k' hk'
            by_cases hr : some k' ∈ rest
            · exact ihval1 k' hr
            · have hsome : some k' = some k := by
                rcases List.mem_cons.mp hk' with hh | hh
                · exact hh
                · exact absurd hh hr
              have hkk : k' = k := Option.some.inj hsome
              subst hkk
              rw [ihval2 k' hr, alookup_aset_self, hl]
          · intro k' hk'
            have hr : ¬some k' ∈ rest :=
              fun hh => hk' (List.mem_cons_of_mem _ hh)
            have hne : k' ≠ k := by
              intro e
              exact hk' (by rw [e]; exact List.mem_cons_self _ _)
            rw [ihval2 k' hr, alookup_aset_ne acc k k' v hne]
          · intro k'
            rw [ihkeys k', mem_akeys_aset]
            simp only [List.mem_cons, Option.some.injEq]
            tauto
          · intro hh
            exact ihnd (akeys_nodup_aset acc k v hh)

/-- The coordinate dict comprehension succeeds as soon as every dim entry is
a (non-null) name with a coordinate present in `coords`. -/
theorem buildXrCoords_ok_of (coords : Coords) :
    ∀ (dims : DimList) (acc : Coords),
      (∀ d ∈ dims, ∃ k, d = some k ∧ (alookup coords k).isSome) →
      ∃ ns ic, buildXrCoords coords dims acc = .ok (ns, ic) := by
  intro dims
  induction dims with
  | nil => intro acc _; exact ⟨[], acc, rfl⟩
  | cons d rest ih =>
    intro acc hall
    rcases hall d (List.mem_cons_self _ _) with ⟨k, hd, hs⟩
    subst hd
    cases hl : alookup coords k with
    | none => rw [hl] at hs; simp at hs
    | some v =>
      rcases ih (aset acc k v)
          (fun d hd => hall d (List.mem_cons_of_mem _ hd)) with ⟨ns, ic, hok⟩
      refine ⟨k :: ns, ic, ?_⟩
      rw [buildXrCoords]
      simp only [hl, hok]

/-- What a successful labeled-array construction guarantees. -/
theorem mkLabeledArray_ok (shape : List Nat) (names : List String) (ic : Coords)
    (la : LabeledArray) (h : mkLabeledArray shape names ic = .ok la) :
    la = ⟨shape, names, ic⟩ ∧ names.length = shape.length ∧
      ∀ p ∈ names.zip shape, ((alookup ic p.1).getD []).length = p.2 := by
  rw [mkLabeledArray] at h
  by_cases hlen : names.length = shape.length
  · rw [if_pos hlen] at h
    cases hf : (names.zip shape).find?
        (fun p => decide (¬((alookup ic p.1).getD []).length = p.2)) with
    | some p => rw [hf] at h; exact absurd h (by simp)
    | none =>
      rw [hf] at h
      refine ⟨(Except.ok.inj h).symm, hlen, ?_⟩
      intro p hp
      have := List.find?_eq_none.mp hf p hp
      simpa using this
  · rw [if_neg hlen] at h
    exact absurd h (by simp)

/-- The labeled-array construction succeeds when the dims count matches the
rank and every coordinate length matches its axis. -/
theorem mkLabeledArray_ok_of (shape : List Nat) (names : List String)
    (ic : Coords) (hlen : names.length = shape.length)
    (hall : ∀ p ∈ names.zip shape, ((alookup ic p.1).getD []).length = p.2) :
    mkLabeledArray shape names ic = .ok ⟨shape, names, ic⟩ := by
  rw [mkLabeledArray, if_pos hlen]
  have hf : (names.zip shape).find?
      (fun p => decide (¬((alookup ic p.1).getD []).length = p.2)) = none := by
    apply List.find?_eq_none.mpr
    intro p hp
    simpa using hall p hp
  rw [hf]

/-- Unfolding `numpy_to_data_array` in terms of its preparation stage. -/
theorem numpy_to_data_array_eq (ary : List Nat) (var_name : String)
    (coords? : Option Coords) (dims? : Option DimList) :
    numpy_to_data_array ary var_name coords? dims? =
      (match buildXrCoords (n2daPrep ary var_name coords? dims?).2.1
          (n2daPrep ary var_name coords? dims?).1 [] with
       | .error e => .error e
       | .ok (names, ic) => mkLabeledArray (two_de ary) names ic,
       (n2daPrep ary var_name coords? dims?).2.2) := rfl

/-- With `dims=None` and `coords=None`, `generate_dims_coords` produces the
auto-generated names and default ranges (shared workhorse behind the claim
theorems below). -/
theorem generate_defaults (S : List Nat) (var_name : String)
    (default_dims? : Option (List String)) :
    (generate_dims_coords S var_name none none default_dims?).dims =
        (S.enumFrom 0).map (fun p => some (dimName var_name p.1)) ∧
      (generate_dims_coords S var_name none none default_dims?).coords =
        (S.enumFrom 0).map (fun p => (dimName var_name p.1, arange p.2)) := by
  have hloop := gdcLoop_auto var_name S 0 [] [] rfl
  have hfl : (List.enumFrom 0 S).filter
      (fun p => !amem ([] : Coords) (dimName var_name p.1)) =
      List.enumFrom 0 S := by
    apply List.filter_eq_self.mpr
    intro p hp
    simp [amem, alookup]
  rw [hfl] at hloop
  have hdims : (generate_dims_coords S var_name none none default_dims?).dims =
      (List.enumFrom 0 S).map (fun p => some (dimName var_name p.1)) := by
    simp only [generate_dims_coords, Option.getD_none, hloop, List.nil_append]
  have hcoords :
      (generate_dims_coords S var_name none none default_dims?).coords =
      ((List.enumFrom 0 S).map
        (fun p => (dimName var_name p.1, arange p.2))).filter
        (fun p => decide (some p.1 ∈
          (List.enumFrom 0 S).map (fun p => some (dimName var_name p.1)))) := by
    simp only [generate_dims_coords, Option.getD_none, hloop, List.nil_append]
  have hfl2 : ((List.enumFrom 0 S).map
      (fun p => (dimName var_name p.1, arange p.2))).filter
      (fun p => decide (some p.1 ∈
        (List.enumFrom 0 S).map (fun p => some (dimName var_name p.1)))) =
      (List.enumFrom 0 S).map (fun p => (dimName var_name p.1, arange p.2)) := by
    apply List.filter_eq_self.mpr
    intro x hx
    rcases List.mem_map.mp hx with ⟨p, hp, hpx⟩
    subst hpx
    simp only [decide_eq_true_eq]
    exact List.mem_map.mpr ⟨p, hp, rfl⟩
  rw [hfl2] at hcoords
  exact ⟨hdims, hcoords⟩

/-! ## Claim C1 -/

/-- C1: for every shape `S` and non-empty `var_name`, calling
`generate_dims_coords` with `dims=None` and `coords=None` returns dims
`["<var_name>_dim_0", ..., "<var_name>_dim_{k-1}"]` where `k = len(S)`, and
a coords map sending each such name to the integer sequence `0..S[i]-1` for
its axis. -/
theorem infer_auto_names_and_ranges (S : List Nat) (var_name : String)
    (default_dims? : Option (List String)) (hv : var_name ≠ "") :
    (generate_dims_coords S var_name none none default_dims?).dims =
        (S.enumFrom 0).map
          (fun p => some (var_name ++ "_dim_" ++ toString p.1)) ∧
      (generate_dims_coords S var_name none none default_dims?).coords =
        (S.enumFrom 0).map
          (fun p => (var_name ++ "_dim_" ++ toString p.1, arange p.2)) :=
  generate_defaults S var_name default_dims?

theorem infer_auto_names_and_ranges_witness :
    ("theta" : String) ≠ "" ∧
      ((generate_dims_coords [4, 7] "theta" none none none).dims =
          (([4, 7] : List Nat).enumFrom 0).map
            (fun p => some ("theta" ++ "_dim_" ++ toString p.1)) ∧
        (generate_dims_coords [4, 7] "theta" none none none).coords =
          (([4, 7] : List Nat).enumFrom 0).map
            (fun p => ("theta" ++ "_dim_" ++ toString p.1, arange p.2))) :=
  ⟨by decide, infer_auto_names_and_ranges [4, 7] "theta" none (by decide)⟩

/-! ## The fully-automatic labelling pipeline -/

theorem arange_length (n : Nat) : (arange n).length = n := by
  simp [arange]

theorem reserved_not_mem_auto (S : List Nat) (n : Nat) (var_name s : String)
    (h : ∀ i, dimName var_name i ≠ s) :
    some s ∉ (S.enumFrom n).map (fun p => some (dimName var_name p.1)) := by
  intro hmem
  rcases List.mem_map.mp hmem with ⟨p, _, hp⟩
  exact h p.1 (Option.some.inj hp)

theorem alookup_autoEntries_none (var_name s : String)
    (h : ∀ i, dimName var_name i ≠ s) :
    ∀ (S : List Nat) (n : Nat),
      alookup ((S.enumFrom n).map (fun p => (dimName var_name p.1, arange p.2)))
        s = none := by
  intro S
  induction S with
  | nil => intro n; rfl
  | cons a rest ih =>
    intro n
    rw [List.enumFrom, List.map_cons, alookup, if_neg (h n)]
    exact ih (n + 1)

theorem alookup_autoEntries (var_name : String) :
    ∀ (S : List Nat) (n j l : Nat), (j, l) ∈ S.enumFrom n →
      alookup ((S.enumFrom n).map (fun p => (dimName var_name p.1, arange p.2)))
        (dimName var_name j) = some (arange l) := by
  intro S
  induction S with
  | nil => intro n j l h; simp [List.enumFrom] at h
  | cons a rest ih =>
    intro n j l h
    rw [List.enumFrom, List.map_cons]
    rcases List.mem_cons.mp h with hh | hh
    · obtain ⟨h1, h2⟩ := Prod.mk.injEq .. ▸ hh
      subst h1; subst h2
      rw [alookup, if_pos rfl]
    · have hge := enumFrom_fst_ge rest (n + 1) (j, l) hh
      have hne : dimName var_name n ≠ dimName var_name j := by
        intro he
        have := dimName_inj var_name n j he
        simp only at hge
        omega
      rw [alookup, if_neg hne]
      exact ih (n + 1) j l hh

/-- With `dims=None` (any `coords`), the inferred dims are the auto names
and no warning is emitted. -/
theorem generate_auto_dims_warns (S : List Nat) (var_name : String)
    (coords? : Option Coords) (dd? : Option (List String)) :
    (generate_dims_coords S var_name none coords? dd?).dims =
        (S.enumFrom 0).map (fun p => some (dimName var_name p.1)) ∧
      (generate_dims_coords S var_name none coords? dd?).warns = [] := by
  have hloop := gdcLoop_auto var_name S 0 [] (coords?.getD []) rfl
  constructor
  · simp only [generate_dims_coords, Option.getD_none, hloop, List.nil_append]
  · simp only [generate_dims_coords, Option.getD_none, List.filter_nil,
      List.length_nil]
    simp

/-- With `dims=None`, reserved names never survive the coordinate filter of
`generate_dims_coords`: its result has no entry for any non-auto name. -/
theorem generate_auto_coords_reserved_none (S : List Nat) (var_name s : String)
    (coords? : Option Coords) (dd? : Option (List String))
    (h : ∀ i, dimName var_name i ≠ s) :
    alookup (generate_dims_coords S var_name none coords? dd?).coords s
      = none := by
  have hloop := gdcLoop_auto var_name S 0 [] (coords?.getD []) rfl
  have hcoords : (generate_dims_coords S var_name none coords? dd?).coords =
      ((gdcLoop var_name S 0 [] (coords?.getD [])).2).filter
        (fun p => decide (some p.1 ∈
          (gdcLoop var_name S 0 [] (coords?.getD [])).1)) := by
    simp only [generate_dims_coords, Option.getD_none]
  rw [hcoords,
    alookup_filter_key _
      (fun k => decide (some k ∈ (gdcLoop var_name S 0 [] (coords?.getD [])).1)) s]
  have hnm : ¬some s ∈ (gdcLoop var_name S 0 [] (coords?.getD [])).1 := by
    rw [hloop]
    simp only [List.nil_append]
    exact reserved_not_mem_auto S 0 var_name s h
  simp [hnm]

theorem insertReserved_mem_chain (dims : DimList) :
    some "chain" ∈ insertReservedDims dims := by
  rw [insertReservedDims]
  by_cases hd : some "draw" ∈ dims
  · rw [if_pos hd]
    by_cases hc : some "chain" ∈ dims
    · rw [if_pos hc]; exact hc
    · rw [if_neg hc]; exact List.mem_cons_self _ _
  · rw [if_neg hd]
    by_cases hc : some "chain" ∈ some "draw" :: dims
    · rw [if_pos hc]; exact hc
    · rw [if_neg hc]; exact List.mem_cons_self _ _

theorem insertReserved_mem_draw (dims : DimList) :
    some "draw" ∈ insertReservedDims dims := by
  rw [insertReservedDims]
  by_cases hd : some "draw" ∈ dims
  · rw [if_pos hd]
    by_cases hc : some "chain" ∈ dims
    · rw [if_pos hc]; exact hd
    · rw [if_neg hc]; exact List.mem_cons_of_mem _ hd
  · rw [if_neg hd]
    by_cases hc : some "chain" ∈ some "draw" :: dims
    · rw [if_pos hc]; exact List.mem_cons_self _ _
    · rw [if_neg hc]; exact List.mem_cons_of_mem _ (List.mem_cons_self _ _)

theorem insertReserved_of_not_mem (dims : DimList)
    (hd : some "draw" ∉ dims) (hc : some "chain" ∉ dims) :
    insertReservedDims dims = some "chain" :: some "draw" :: dims := by
  rw [insertReservedDims, if_neg hd]
  have hc' : some "chain" ∉ some "draw" :: dims := by
    intro hh
    rcases List.mem_cons.mp hh with hh | hh
    · exact absurd (Option.some.inj hh) (by decide)
    · exact hc hh
  rw [if_neg hc']

/-- The dims/coords/warnings reaching the final construction for a rank-two
or higher array labelled with `dims=None`: reserved dims are prepended to
the auto names, and the reserved default coordinates are appended behind
the filtered inferred coordinates. -/
theorem n2daPrep_auto (nc nsamp : Nat) (rest : List Nat) (var_name : String)
    (coords? : Option Coords) :
    n2daPrep (nc :: nsamp :: rest) var_name coords? none =
      (some "chain" :: some "draw" ::
          (rest.enumFrom 0).map (fun p => some (dimName var_name p.1)),
        (generate_dims_coords rest var_name none coords?
            (some ["chain", "draw"])).coords ++
          [("chain", arange nc), ("draw", arange nsamp)],
        if nsamp < nc then [Warn.moreChains] else []) := by
  obtain ⟨hdims, hwarns⟩ :=
    generate_auto_dims_warns rest var_name coords? (some ["chain", "draw"])
  have hchain : alookup (generate_dims_coords rest var_name none coords?
      (some ["chain", "draw"])).coords "chain" = none :=
    generate_auto_coords_reserved_none rest var_name "chain" coords? _
      (fun i => dimName_ne_chain var_name i)
  have hdraw : alookup (generate_dims_coords rest var_name none coords?
      (some ["chain", "draw"])).coords "draw" = none :=
    generate_auto_coords_reserved_none rest var_name "draw" coords? _
      (fun i => dimName_ne_draw var_name i)
  have hs : two_de (nc :: nsamp :: rest) = nc :: nsamp :: rest := rfl
  simp only [n2daPrep, hs, List.headD_cons, List.tail_cons,
    List.drop_succ_cons, List.drop_zero]
  have hins : insertReservedDims (generate_dims_coords rest var_name none
      coords? (some ["chain", "draw"])).dims =
      some "chain" :: some "draw" ::
        (rest.enumFrom 0).map (fun p => some (dimName var_name p.1)) := by
    rw [hdims]
    rw [insertReserved_of_not_mem _
      (reserved_not_mem_auto rest 0 var_name "draw"
        (fun i => dimName_ne_draw var_name i))
      (reserved_not_mem_auto rest 0 var_name "chain"
        (fun i => dimName_ne_chain var_name i))]
  have hmemc : amem (generate_dims_coords rest var_name none coords?
      (some ["chain", "draw"])).coords "chain" = false := by
    rw [amem, hchain]; rfl
  have hsetc : aset (generate_dims_coords rest var_name none coords?
      (some ["chain", "draw"])).coords "chain" (arange nc) =
      (generate_dims_coords rest var_name none coords?
        (some ["chain", "draw"])).coords ++ [("chain", arange nc)] :=
    aset_of_not_mem _ _ _ hchain
  have hdraw2 : alookup ((generate_dims_coords rest var_name none coords?
      (some ["chain", "draw"])).coords ++ [("chain", arange nc)]) "draw"
      = none := by
    rw [alookup_append, hdraw]
    simp [alookup]
  have hmemd : amem ((generate_dims_coords rest var_name none coords?
      (some ["chain", "draw"])).coords ++ [("chain", arange nc)]) "draw"
      = false := by
    rw [amem, hdraw2]; rfl
  have hsetd := aset_of_not_mem _ "draw" (arange nsamp) hdraw2
  simp only [hins, hmemc, hsetc, hmemd, hsetd, Bool.false_eq_true,
    if_neg (by simp : ¬False), List.append_assoc, List.cons_append,
    List.nil_append, hwarns, List.append_nil]

theorem zip_getD_mem {α β : Type} (l : List α) (l' : List β) (i : Nat)
    (d : α) (d' : β) (h1 : i < l.length) (h2 : i < l'.length) :
    (l.getD i d, l'.getD i d') ∈ l.zip l' := by
  induction l generalizing l' i with
  | nil => simp at h1
  | cons a rest ih =>
    cases l' with
    | nil => simp at h2
    | cons b rest' =>
      cases i with
      | zero => simp [List.zip_cons_cons]
      | succ i =>
        simp only [List.zip_cons_cons, List.getD_cons_succ]
        refine List.mem_cons_of_mem _ (ih rest' i ?_ ?_)
        · simp only [List.length_cons] at h1; omega
        · simp only [List.length_cons] at h2; omega

/-! ## Claim C2 -/

/-- C2: every LabeledArray successfully returned by `numpy_to_data_array`
satisfies the LabeledArray invariant: the number of dimension names equals
the rank of the (rank-normalized) array, the coordinate map has exactly the
keys appearing in the dims list (one entry each), and each coordinate
sequence's length equals the length of the axis it indexes. -/
theorem label_result_invariant (ary : List Nat) (var_name : String)
    (coords? : Option Coords) (dims? : Option DimList) (la : LabeledArray)
    (w : List Warn)
    (h : numpy_to_data_array ary var_name coords? dims? = (.ok la, w)) :
    la.shape = two_de ary ∧
      la.dims.length = la.shape.length ∧
      (akeys la.coords).Nodup ∧
      (∀ k, k ∈ akeys la.coords ↔ k ∈ la.dims) ∧
      ∀ i, i < la.dims.length →
        ∃ vs, alookup la.coords (la.dims.getD i "") = some vs ∧
          vs.length = la.shape.getD i 0 := by
  rw [numpy_to_data_array_eq] at h
  have h1 := congrArg Prod.fst h
  simp only at h1
  cases hb : buildXrCoords (n2daPrep ary var_name coords? dims?).2.1
      (n2daPrep ary var_name coords? dims?).1 [] with
  | error e =>
    rw [hb] at h1
    exact absurd h1 (by simp)
  | ok pair =>
    obtain ⟨ns, ic⟩ := pair
    rw [hb] at h1
    obtain ⟨hla, hlen, hall⟩ := mkLabeledArray_ok _ _ _ _ h1
    obtain ⟨hnames, hval1, hval2, hkeys, hnd⟩ :=
      buildXrCoords_ok_spec _ _ _ _ _ hb
    subst hla
    refine ⟨rfl, hlen, hnd (by simp [akeys]), ?_, ?_⟩
    · intro k
      have := hkeys k
      rw [hnames] at this
      simpa [akeys, List.mem_map] using this
    · intro i hi
      simp only at hi ⊢
      have hi2 : i < (two_de ary).length := by omega
      have hmm := hall (ns.getD i "", (two_de ary).getD i 0)
        (zip_getD_mem ns (two_de ary) i "" 0 hi hi2)
      have hmem : ns.getD i "" ∈ ns :=
        mem_of_getD_eq ns i "" (ns.getD i "") hi rfl
      have hk : ns.getD i "" ∈ akeys ic := by
        rw [hkeys]
        right
        rw [hnames]
        exact List.mem_map.mpr ⟨ns.getD i "", hmem, rfl⟩
      have hsome := (alookup_isSome_iff_mem_akeys ic (ns.getD i "")).mpr hk
      cases hvs : alookup ic (ns.getD i "") with
      | none => rw [hvs] at hsome; simp at hsome
      | some vs =>
        refine ⟨vs, rfl, ?_⟩
        rw [hvs] at hmm
        simpa using hmm

theorem label_result_invariant_witness :
    numpy_to_data_array [2, 3] "x" none none =
        (.ok ⟨[2, 3], ["chain", "draw"],
          [("chain", arange 2), ("draw", arange 3)]⟩, []) ∧
      (LabeledArray.mk [2, 3] ["chain", "draw"]
            [("chain", arange 2), ("draw", arange 3)]).shape = two_de [2, 3] ∧
      (LabeledArray.mk [2, 3] ["chain", "draw"]
          [("chain", arange 2), ("draw", arange 3)]).dims.length =
        (LabeledArray.mk [2, 3] ["chain", "draw"]
          [("chain", arange 2), ("draw", arange 3)]).shape.length ∧
      (akeys (LabeledArray.mk [2, 3] ["chain", "draw"]
        [("chain", arange 2), ("draw", arange 3)]).coords).Nodup ∧
      (∀ k, k ∈ akeys (LabeledArray.mk [2, 3] ["chain", "draw"]
            [("chain", arange 2), ("draw", arange 3)]).coords ↔
        k ∈ (LabeledArray.mk [2, 3] ["chain", "draw"]
          [("chain", arange 2), ("draw", arange 3)]).dims) ∧
      ∀ i, i < (LabeledArray.mk [2, 3] ["chain", "draw"]
          [("chain", arange 2), ("draw", arange 3)]).dims.length →
        ∃ vs, alookup (LabeledArray.mk [2, 3] ["chain", "draw"]
              [("chain", arange 2), ("draw", arange 3)]).coords
            ((LabeledArray.mk [2, 3] ["chain", "draw"]
              [("chain", arange 2), ("draw", arange 3)]).dims.getD i "")
          = some vs ∧
          vs.length = (LabeledArray.mk [2, 3] ["chain", "draw"]
            [("chain", arange 2), ("draw", arange 3)]).shape.getD i 0 :=
  ⟨by decide,
    label_result_invariant [2, 3] "x" none none
      ⟨[2, 3], ["chain", "draw"], [("chain", arange 2), ("draw", arange 3)]⟩
      [] (by decide)⟩

/-- Plumbing: the dims reaching the final construction. -/
theorem n2daPrep_dims (ary : List Nat) (var_name : String)
    (coords? : Option Coords) (dims? : Option DimList) :
    (n2daPrep ary var_name coords? dims?).1 =
      insertReservedDims (generate_dims_coords ((two_de ary).drop 2) var_name
        dims? coords? (some ["chain", "draw"])).dims := rfl

/-- Plumbing: the warnings emitted by the labelling pipeline. -/
theorem n2daPrep_warns (ary : List Nat) (var_name : String)
    (coords? : Option Coords) (dims? : Option DimList) :
    (n2daPrep ary var_name coords? dims?).2.2 =
      (if (two_de ary).tail.headD 0 < (two_de ary).headD 0 then
        [Warn.moreChains] else []) ++
      (generate_dims_coords ((two_de ary).drop 2) var_name dims? coords?
        (some ["chain", "draw"])).warns := rfl

/-- Plumbing: the warns component of `generate_dims_coords`. -/
theorem generate_warns (shape : List Nat) (var_name : String)
    (dims? : Option DimList) (coords? : Option Coords)
    (dd? : Option (List String)) :
    (generate_dims_coords shape var_name dims? coords? dd?).warns =
      if shape.length < ((dims?.getD []).filter
          (fun d => decide (d ∉ (dd?.getD []).map some))).length then
        [Warn.moreDims]
      else [] := rfl

/-! ## Claim C3 -/

/-- C3: labelling any rank-2-or-higher array with no dims/coords overrides
yields dims `["chain","draw", <auto-named free dims>]` with default integer
range coordinates for every axis; in particular a `(4, 100)` array yields
dims `["chain","draw"]` with `chain` coords `[0,1,2,3]` and `draw` coords
`0..99`, and a `(4, 100, 8)` array named `"theta"` additionally gets
`"theta_dim_0"` with coords `0..7`. -/
theorem label_auto_rank2plus :
    (∀ (nc nsamp : Nat) (rest : List Nat) (var_name : String),
      ∃ la : LabeledArray,
        numpy_to_data_array (nc :: nsamp :: rest) var_name none none =
            (.ok la, if nsamp < nc then [Warn.moreChains] else []) ∧
          la.dims = "chain" :: "draw" ::
            (rest.enumFrom 0).map
              (fun p => var_name ++ "_dim_" ++ toString p.1) ∧
          alookup la.coords "chain" = some (arange nc) ∧
          alookup la.coords "draw" = some (arange nsamp) ∧
          ∀ p ∈ rest.enumFrom 0,
            alookup la.coords (var_name ++ "_dim_" ++ toString p.1) =
              some (arange p.2)) ∧
      numpy_to_data_array [4, 100] "x" none none =
        (.ok ⟨[4, 100], ["chain", "draw"],
          [("chain", arange 4), ("draw", arange 100)]⟩, []) ∧
      numpy_to_data_array [4, 100, 8] "theta" none none =
        (.ok ⟨[4, 100, 8], ["chain", "draw", "theta_dim_0"],
          [("chain", arange 4), ("draw", arange 100),
            ("theta_dim_0", arange 8)]⟩, []) := by
  refine ⟨?_, by decide, by decide⟩
  intro nc nsamp rest var_name
  have hg := (generate_defaults rest var_name (some ["chain", "draw"])).2
  have hprep := n2daPrep_auto nc nsamp rest var_name none
  rw [hg] at hprep
  have hdimsPre : (n2daPrep (nc :: nsamp :: rest) var_name none none).1 =
      some "chain" :: some "draw" ::
        (rest.enumFrom 0).map (fun p => some (dimName var_name p.1)) := by
    rw [hprep]
  have hcoordsPre : (n2daPrep (nc :: nsamp :: rest) var_name none none).2.1 =
      (rest.enumFrom 0).map (fun p => (dimName var_name p.1, arange p.2)) ++
        [("chain", arange nc), ("draw", arange nsamp)] := by
    rw [hprep]
  have hwarnsPre : (n2daPrep (nc :: nsamp :: rest) var_name none none).2.2 =
      if nsamp < nc then [Warn.moreChains] else [] := by
    rw [hprep]
  set A := (rest.enumFrom 0).map (fun p => (dimName var_name p.1, arange p.2))
    with hA
  set B := A ++ [("chain", arange nc), ("draw", arange nsamp)] with hB
  have hlc : alookup B "chain" = some (arange nc) := by
    rw [hB, alookup_append, hA,
      alookup_autoEntries_none var_name "chain"
        (fun i => dimName_ne_chain var_name i) rest 0]
    simp [alookup]
  have hld : alookup B "draw" = some (arange nsamp) := by
    rw [hB, alookup_append, hA,
      alookup_autoEntries_none var_name "draw"
        (fun i => dimName_ne_draw var_name i) rest 0]
    simp [alookup]
  have hlauto : ∀ p ∈ rest.enumFrom 0,
      alookup B (dimName var_name p.1) = some (arange p.2) := by
    intro p hp
    rw [hB, alookup_append, hA,
      alookup_autoEntries var_name rest 0 p.1 p.2 (by rw [Prod.mk.eta]; exact hp)]
    rfl
  have hallok : ∀ d ∈ (some "chain" :: some "draw" ::
      (rest.enumFrom 0).map (fun p => some (dimName var_name p.1)) : DimList),
      ∃ k, d = some k ∧ (alookup B k).isSome := by
    intro d hd
    rcases List.mem_cons.mp hd with hh | hd
    · exact ⟨"chain", hh, by rw [hlc]; rfl⟩
    rcases List.mem_cons.mp hd with hh | hd
    · exact ⟨"draw", hh, by rw [hld]; rfl⟩
    rcases List.mem_map.mp hd with ⟨p, hp, hpd⟩
    exact ⟨dimName var_name p.1, hpd.symm, by rw [hlauto p hp]; rfl⟩
  obtain ⟨ns, ic, hok⟩ := buildXrCoords_ok_of B _ [] hallok
  obtain ⟨hnames, hval1, hval2, hkeys, hnd⟩ := buildXrCoords_ok_spec _ _ _ _ _ hok
  have hns : ns = "chain" :: "draw" ::
      (rest.enumFrom 0).map (fun p => dimName var_name p.1) := by
    have h2 : (some "chain" :: some "draw" ::
        (rest.enumFrom 0).map (fun p => some (dimName var_name p.1)) : DimList) =
        ("chain" :: "draw" ::
          (rest.enumFrom 0).map (fun p => dimName var_name p.1)).map some := by
      simp [List.map_map, Function.comp]
    have h3 := h2.symm.trans hnames
    exact (List.map_injective_iff.mpr (Option.some_injective _) h3).symm
  have hic : ∀ k ∈ ns, alookup ic k = alookup B k := by
    intro k hk
    apply hval1
    rw [hnames]
    exact List.mem_map.mpr ⟨k, hk, rfl⟩
  have hlen : ns.length = (nc :: nsamp :: rest).length := by
    rw [hns]
    simp [List.enumFrom_length]
  have hzipauto : ((rest.enumFrom 0).map
        (fun p => dimName var_name p.1)).zip rest =
      (rest.enumFrom 0).map (fun q => (dimName var_name q.1, q.2)) := by
    nth_rewrite 2 [← List.enumFrom_map_snd 0 rest]
    exact List.zip_map' _ _ _
  have hall : ∀ p ∈ ns.zip (nc :: nsamp :: rest),
      ((alookup ic p.1).getD []).length = p.2 := by
    rw [hns]
    intro p hp
    rw [List.zip_cons_cons] at hp
    rcases List.mem_cons.mp hp with hh | hp
    · subst hh
      rw [hic "chain" (by rw [hns]; exact List.mem_cons_self _ _), hlc]
      simp [arange_length]
    rw [List.zip_cons_cons] at hp
    rcases List.mem_cons.mp hp with hh | hp
    · subst hh
      rw [hic "draw" (by rw [hns]; simp), hld]
      simp [arange_length]
    rw [hzipauto] at hp
    rcases List.mem_map.mp hp with ⟨q, hq, hqp⟩
    subst hqp
    have hmemq : dimName var_name q.1 ∈ ns := by
      rw [hns]
      refine List.mem_cons_of_mem _ (List.mem_cons_of_mem _ ?_)
      exact List.mem_map.mpr ⟨q, hq, rfl⟩
    rw [hic _ hmemq, hlauto q hq]
    simp [arange_length]
  have hmk := mkLabeledArray_ok_of (nc :: nsamp :: rest) ns ic hlen hall
  refine ⟨⟨nc :: nsamp :: rest, ns, ic⟩, ?_, ?_, ?_, ?_, ?_⟩
  · rw [numpy_to_data_array_eq]
    rw [show two_de (nc :: nsamp :: rest) = nc :: nsamp :: rest from rfl]
    rw [hwarnsPre, hdimsPre, hcoordsPre]
    simp only [hok, hmk]
  · simp only
    rw [hns]
    rfl
  · simp only
    rw [hic "chain" (by rw [hns]; exact List.mem_cons_self _ _), hlc]
  · simp only
    rw [hic "draw" (by rw [hns]; simp), hld]
  · intro p hp
    simp only
    have hmemq : dimName var_name p.1 ∈ ns := by
      rw [hns]
      refine List.mem_cons_of_mem _ (List.mem_cons_of_mem _ ?_)
      exact List.mem_map.mpr ⟨p, hp, rfl⟩
    rw [show (var_name ++ "_dim_" ++ toString p.1) = dimName var_name p.1
      from rfl]
    rw [hic _ hmemq, hlauto p hp]

theorem label_auto_rank2plus_witness :
    ∃ la : LabeledArray,
      numpy_to_data_array [2, 6, 3] "v" none none =
          (.ok la, if 6 < 2 then [Warn.moreChains] else []) ∧
        la.dims = "chain" :: "draw" ::
          (([3] : List Nat).enumFrom 0).map
            (fun p => "v" ++ "_dim_" ++ toString p.1) ∧
        alookup la.coords "chain" = some (arange 2) ∧
        alookup la.coords "draw" = some (arange 6) ∧
        ∀ p ∈ ([3] : List Nat).enumFrom 0,
          alookup la.coords ("v" ++ "_dim_" ++ toString p.1) =
            some (arange p.2) :=
  label_auto_rank2plus.1 2 6 [3] "v"

/-! ## Claim C4 -/

/-- C4, counterexample: labelling a `(5,5)` array with caller dims
`["chain"]` (so `"draw"` is absent while `"chain"` is present) produces
dims `["draw","chain"]` — `"draw"` is prepended at the front, not inserted
immediately after `"chain"`. -/
theorem draw_prepended_before_chain :
    (numpy_to_data_array [5, 5] "data" none (some [some "chain"])).1 =
        .ok ⟨[5, 5], ["draw", "chain"],
          [("draw", arange 5), ("chain", arange 5)]⟩ ∧
      (["draw", "chain"] : List String) ≠ ["chain", "draw"] := by decide

/-- C4, amended: after the trailing-shape inference step, a missing
`"draw"` is prepended at the front of the dims list (before any `"chain"`
already present, not immediately after it), and then a missing `"chain"` is
prepended first; when both are missing this yields `chain, draw` at the
front, and both `"chain"` and `"draw"` appear in the dims of every
successfully returned LabeledArray. -/
theorem reserved_dims_normalization_amended :
    (∀ dims : DimList,
      some "chain" ∈ insertReservedDims dims ∧
        some "draw" ∈ insertReservedDims dims ∧
        (some "draw" ∉ dims →
          insertReservedDims dims =
            if some "chain" ∈ dims then some "draw" :: dims
            else some "chain" :: some "draw" :: dims)) ∧
      ∀ (ary : List Nat) (var_name : String) (coords? : Option Coords)
        (dims? : Option DimList) (la : LabeledArray) (w : List Warn),
        numpy_to_data_array ary var_name coords? dims? = (.ok la, w) →
        "chain" ∈ la.dims ∧ "draw" ∈ la.dims := by
  constructor
  · intro dims
    refine ⟨insertReserved_mem_chain dims, insertReserved_mem_draw dims, ?_⟩
    intro hd
    rw [insertReservedDims, if_neg hd]
    by_cases hc : some "chain" ∈ dims
    · rw [if_pos (List.mem_cons_of_mem _ hc), if_pos hc]
    · have hc' : some "chain" ∉ some "draw" :: dims := by
        intro hh
        rcases List.mem_cons.mp hh with hh | hh
        · exact absurd (Option.some.inj hh) (by decide)
        · exact hc hh
      rw [if_neg hc', if_neg hc]
  · intro ary var_name coords? dims? la w h
    rw [numpy_to_data_array_eq] at h
    have h1 := congrArg Prod.fst h
    simp only at h1
    cases hb : buildXrCoords (n2daPrep ary var_name coords? dims?).2.1
        (n2daPrep ary var_name coords? dims?).1 [] with
    | error e => rw [hb] at h1; exact absurd h1 (by simp)
    | ok pair =>
      obtain ⟨ns, ic⟩ := pair
      rw [hb] at h1
      obtain ⟨hla, _, _⟩ := mkLabeledArray_ok _ _ _ _ h1
      obtain ⟨hnames, _, _, _, _⟩ := buildXrCoords_ok_spec _ _ _ _ _ hb
      subst hla
      rw [n2daPrep_dims] at hnames
      constructor
      · have hm := insertReserved_mem_chain
          (generate_dims_coords ((two_de ary).drop 2) var_name dims? coords?
            (some ["chain", "draw"])).dims
        rw [hnames] at hm
        rcases List.mem_map.mp hm with ⟨k, hk, hkk⟩
        obtain rfl : k = "chain" := Option.some.inj hkk
        exact hk
      · have hm := insertReserved_mem_draw
          (generate_dims_coords ((two_de ary).drop 2) var_name dims? coords?
            (some ["chain", "draw"])).dims
        rw [hnames] at hm
        rcases List.mem_map.mp hm with ⟨k, hk, hkk⟩
        obtain rfl : k = "draw" := Option.some.inj hkk
        exact hk

theorem reserved_dims_normalization_amended_witness :
    some "chain" ∈ insertReservedDims [some "x"] ∧
      some "draw" ∈ insertReservedDims [some "x"] ∧
      (some "draw" ∉ ([some "x"] : DimList) →
        insertReservedDims [some "x"] =
          if some "chain" ∈ ([some "x"] : DimList) then
            some "draw" :: [some "x"]
          else some "chain" :: some "draw" :: [some "x"]) :=
  reserved_dims_normalization_amended.1 [some "x"]

/-! ## Claim C6 -/

/-- The inferred coordinates when the caller supplies exactly the
coordinate of the first trailing dimension: the supplied sequence is kept
verbatim, the remaining trailing axes get default ranges. -/
theorem generate_single_trailing_coord (l : Nat) (more : List Nat)
    (var_name : String) (cv : List Int) :
    (generate_dims_coords (l :: more) var_name none
        (some [(dimName var_name 0, cv)]) (some ["chain", "draw"])).coords =
      (dimName var_name 0, cv) ::
        (more.enumFrom 1).map (fun p => (dimName var_name p.1, arange p.2)) := by
  have hloop := gdcLoop_auto var_name (l :: more) 0 []
    [(dimName var_name 0, cv)] rfl
  have hmem0 : amem [(dimName var_name 0, cv)] (dimName var_name 0) = true := by
    rw [amem, alookup, if_pos rfl]
    rfl
  have hmemj : ∀ p ∈ more.enumFrom 1,
      amem [(dimName var_name 0, cv)] (dimName var_name p.1) = false := by
    intro p hp
    have hge := enumFrom_fst_ge more 1 p hp
    have hne : dimName var_name 0 ≠ dimName var_name p.1 := by
      intro hh
      have := dimName_inj var_name 0 p.1 hh
      omega
    rw [amem, alookup, if_neg hne]
    rfl
  have hfl : (List.enumFrom 0 (l :: more)).filter
      (fun p => !amem [(dimName var_name 0, cv)] (dimName var_name p.1)) =
      more.enumFrom 1 := by
    rw [List.enumFrom, List.filter_cons]
    simp only [hmem0, Bool.not_true, Bool.false_eq_true,
      if_neg (by simp : ¬False)]
    apply List.filter_eq_self.mpr
    intro p hp
    rw [hmemj p hp]
    rfl
  rw [hfl] at hloop
  have hcoords : (generate_dims_coords (l :: more) var_name none
      (some [(dimName var_name 0, cv)]) (some ["chain", "draw"])).coords =
      ((gdcLoop var_name (l :: more) 0 [] [(dimName var_name 0, cv)]).2).filter
        (fun p => decide (some p.1 ∈
          (gdcLoop var_name (l :: more) 0 [] [(dimName var_name 0, cv)]).1)) := by
    simp only [generate_dims_coords, Option.getD_none, Option.getD_some]
  rw [hcoords, hloop]
  simp only [List.nil_append]
  apply List.filter_eq_self.mpr
  intro p hp
  simp only [decide_eq_true_eq]
  rcases List.mem_cons.mp hp with hh | hp
  · subst hh
    rw [List.enumFrom, List.map_cons]
    exact List.mem_cons_self _ _
  · rcases List.mem_map.mp hp with ⟨q, hq, hqp⟩
    subst hqp
    rw [List.enumFrom, List.map_cons]
    exact List.mem_cons_of_mem _
      (List.mem_map.mpr ⟨q, hq, rfl⟩)

/-- C6, counterexample: a caller-supplied `"chain"` coordinate of length 3
for a chain axis of length 4 does not raise any error — it is silently
dropped by the coordinate filter and replaced by the default range. -/
theorem chain_coord_mismatch_ignored :
    numpy_to_data_array [4, 100] "data" (some [("chain", [0, 1, 2])]) none =
      (.ok ⟨[4, 100], ["chain", "draw"],
        [("chain", arange 4), ("draw", arange 100)]⟩, []) := by decide

/-- C6, amended: a caller-supplied coordinate sequence that survives to the
final construction (here: the coordinate of a trailing auto-named
dimension) whose length does not equal its axis length makes
`numpy_to_data_array` fail with CoordinateLengthError and return no
LabeledArray; supplying a length-3 sequence for an axis of length 4 is an
instance. -/
theorem trailing_coord_length_error (nc nsamp l : Nat) (more : List Nat)
    (var_name : String) (cv : List Int) (hcl : cv.length ≠ l) :
    (numpy_to_data_array (nc :: nsamp :: l :: more) var_name
        (some [(dimName var_name 0, cv)]) none).1 =
      .error (.coordLenError (dimName var_name 0)) := by
  have hgc := generate_single_trailing_coord l more var_name cv
  have hprep := n2daPrep_auto nc nsamp (l :: more) var_name
    (some [(dimName var_name 0, cv)])
  rw [hgc] at hprep
  set B := ((dimName var_name 0, cv) ::
      (more.enumFrom 1).map (fun p => (dimName var_name p.1, arange p.2))) ++
      [("chain", arange nc), ("draw", arange nsamp)] with hB
  have hDims : (n2daPrep (nc :: nsamp :: l :: more) var_name
      (some [(dimName var_name 0, cv)]) none).1 =
      some "chain" :: some "draw" ::
        ((l :: more).enumFrom 0).map (fun p => some (dimName var_name p.1)) := by
    rw [hprep]
  have hCoords : (n2daPrep (nc :: nsamp :: l :: more) var_name
      (some [(dimName var_name 0, cv)]) none).2.1 = B := by
    rw [hprep]
  have hlc : alookup B "chain" = some (arange nc) := by
    rw [hB, List.cons_append, alookup, if_neg (dimName_ne_chain var_name 0),
      alookup_append,
      alookup_autoEntries_none var_name "chain"
        (fun i => dimName_ne_chain var_name i) more 1]
    simp [alookup]
  have hld : alookup B "draw" = some (arange nsamp) := by
    rw [hB, List.cons_append, alookup, if_neg (dimName_ne_draw var_name 0),
      alookup_append,
      alookup_autoEntries_none var_name "draw"
        (fun i => dimName_ne_draw var_name i) more 1]
    simp [alookup]
  have hl0 : alookup B (dimName var_name 0) = some cv := by
    rw [hB, List.cons_append, alookup, if_pos rfl]
  have hlauto : ∀ p ∈ more.enumFrom 1,
      alookup B (dimName var_name p.1) = some (arange p.2) := by
    intro p hp
    have hge := enumFrom_fst_ge more 1 p hp
    have hne : dimName var_name 0 ≠ dimName var_name p.1 := by
      intro hh
      have := dimName_inj var_name 0 p.1 hh
      omega
    rw [hB, List.cons_append, alookup, if_neg hne, alookup_append,
      alookup_autoEntries var_name more 1 p.1 p.2 (by rw [Prod.mk.eta]; exact hp)]
    rfl
  have henum : ((l :: more).enumFrom 0) = (0, l) :: more.enumFrom 1 := rfl
  have hallok : ∀ d ∈ (some "chain" :: some "draw" ::
      ((l :: more).enumFrom 0).map (fun p => some (dimName var_name p.1)) :
        DimList),
      ∃ k, d = some k ∧ (alookup B k).isSome := by
    intro d hd
    rcases List.mem_cons.mp hd with hh | hd
    · exact ⟨"chain", hh, by rw [hlc]; rfl⟩
    rcases List.mem_cons.mp hd with hh | hd
    · exact ⟨"draw", hh, by rw [hld]; rfl⟩
    rw [henum, List.map_cons] at hd
    rcases List.mem_cons.mp hd with hh | hd
    · exact ⟨dimName var_name 0, hh, by rw [hl0]; rfl⟩
    · rcases List.mem_map.mp hd with ⟨p, hp, hpd⟩
      exact ⟨dimName var_name p.1, hpd.symm, by rw [hlauto p hp]; rfl⟩
  obtain ⟨ns, ic, hok⟩ := buildXrCoords_ok_of B _ [] hallok
  obtain ⟨hnames, hval1, _, _, _⟩ := buildXrCoords_ok_spec _ _ _ _ _ hok
  have hns : ns = "chain" :: "draw" :: dimName var_name 0 ::
      (more.enumFrom 1).map (fun p => dimName var_name p.1) := by
    have h2 : (some "chain" :: some "draw" ::
        ((l :: more).enumFrom 0).map (fun p => some (dimName var_name p.1)) :
          DimList) =
        ("chain" :: "draw" :: dimName var_name 0 ::
          (more.enumFrom 1).map (fun p => dimName var_name p.1)).map some := by
      rw [henum, List.map_cons]
      simp [List.map_map, Function.comp]
    have h3 := h2.symm.trans hnames
    exact (List.map_injective_iff.mpr (Option.some_injective _) h3).symm
  have hic : ∀ k ∈ ns, alookup ic k = alookup B k := by
    intro k hk
    apply hval1
    rw [hnames]
    exact List.mem_map.mpr ⟨k, hk, rfl⟩
  have hmk : mkLabeledArray (nc :: nsamp :: l :: more) ns ic =
      .error (.coordLenError (dimName var_name 0)) := by
    have hlen : ns.length = (nc :: nsamp :: l :: more).length := by
      rw [hns]
      simp [List.enumFrom_length]
    rw [mkLabeledArray, if_pos hlen, hns]
    rw [List.zip_cons_cons, List.zip_cons_cons, List.zip_cons_cons]
    rw [List.find?_cons_of_neg _ (by
      simp only [decide_eq_true_eq, Decidable.not_not]
      rw [hic "chain" (by rw [hns]; exact List.mem_cons_self _ _), hlc]
      simp [arange_length])]
    rw [List.find?_cons_of_neg _ (by
      simp only [decide_eq_true_eq, Decidable.not_not]
      rw [hic "draw" (by rw [hns]; simp), hld]
      simp [arange_length])]
    rw [List.find?_cons_of_pos _ (by
      simp only [decide_eq_true_eq]
      rw [hic (dimName var_name 0) (by rw [hns]; simp), hl0]
      simpa using hcl)]
  rw [numpy_to_data_array_eq]
  simp only
  rw [hDims, hCoords]
  simp only [hok]
  rw [show two_de (nc :: nsamp :: l :: more) = nc :: nsamp :: l :: more
    from rfl]
  exact hmk

theorem trailing_coord_length_error_witness :
    ([0, 1, 2] : List Int).length ≠ 4 ∧
      (numpy_to_data_array [2, 5, 4] "x"
          (some [(dimName "x" 0, [0, 1, 2])]) none).1 =
        .error (.coordLenError (dimName "x" 0)) :=
  ⟨by decide,
    trailing_coord_length_error 2 5 4 [] "x" [0, 1, 2] (by decide)⟩

/-! ## Claim C7 -/

/-- C7: the ShapeMismatchWarning is emitted exactly in two non-fatal
situations — in `generate_dims_coords` when the count of dims entries not
among the default dims exceeds `len(shape)`, and in `numpy_to_data_array`
when `n_chains > n_samples` — and in particular a `(10, 5)` array still
yields a valid result (dims `["chain","draw"]`, coordinate lengths 10 and
5) alongside the warning. -/
theorem shape_mismatch_warnings :
    (∀ (shape : List Nat) (var_name : String) (dims? : Option DimList)
        (coords? : Option Coords) (dd? : Option (List String)),
      (generate_dims_coords shape var_name dims? coords? dd?).warns =
        if shape.length < ((dims?.getD []).filter
            (fun d => decide (d ∉ (dd?.getD []).map some))).length then
          [Warn.moreDims]
        else []) ∧
      (∀ (ary : List Nat) (var_name : String) (coords? : Option Coords)
          (dims? : Option DimList),
        (Warn.moreChains ∈ (numpy_to_data_array ary var_name coords? dims?).2 ↔
          (two_de ary).tail.headD 0 < (two_de ary).headD 0) ∧
        (Warn.moreDims ∈ (numpy_to_data_array ary var_name coords? dims?).2 ↔
          ((two_de ary).drop 2).length < ((dims?.getD []).filter
            (fun d => decide
              (d ∉ (["chain", "draw"] : List String).map some))).length)) ∧
      numpy_to_data_array [10, 5] "x" none none =
        (.ok ⟨[10, 5], ["chain", "draw"],
          [("chain", arange 10), ("draw", arange 5)]⟩, [Warn.moreChains]) := by
  refine ⟨?_, ?_, by decide⟩
  · intro shape var_name dims? coords? dd?
    exact generate_warns shape var_name dims? coords? dd?
  · intro ary var_name coords? dims?
    have hw : (numpy_to_data_array ary var_name coords? dims?).2 =
        (n2daPrep ary var_name coords? dims?).2.2 := rfl
    rw [hw, n2daPrep_warns, generate_warns]
    simp only [Option.getD_some]
    by_cases h1 : (two_de ary).tail.headD 0 < (two_de ary).headD 0 <;>
      by_cases h2 : ((two_de ary).drop 2).length < ((dims?.getD []).filter
        (fun d => decide
          (d ∉ (["chain", "draw"] : List String).map some))).length <;>
      simp [h1, h2]

theorem shape_mismatch_warnings_witness :
    (generate_dims_coords [2] "x" (some [some "a", some "b", some "c"]) none
        none).warns =
      if ([2] : List Nat).length <
          (((some [some "a", some "b", some "c"] : Option DimList).getD
            []).filter
            (fun d => decide
              (d ∉ ((none : Option (List String)).getD []).map some))).length
        then [Warn.moreDims]
      else [] :=
  shape_mismatch_warnings.1 [2] "x" (some [some "a", some "b", some "c"])
    none none

/-! ## Claim C5 -/

/-- C5, counterexample: with `shape=[2]` and caller dims `["a","b"]`,
`generate_dims_coords` returns a dims list of length 2, not `len(shape)=1`,
and its coords map has no entry for the name `"b"` that appears in the
returned dims. -/
theorem infer_dims_longer_than_shape :
    (generate_dims_coords [2] "x" (some [some "a", some "b"]) none none).dims
        = [some "a", some "b"] ∧
      ¬(generate_dims_coords [2] "x"
          (some [some "a", some "b"]) none none).dims.length
        = ([2] : List Nat).length ∧
      alookup (generate_dims_coords [2] "x"
        (some [some "a", some "b"]) none none).coords "b" = none ∧
      some "b" ∈ (generate_dims_coords [2] "x"
        (some [some "a", some "b"]) none none).dims := by decide

/-- C5, amended: the dims list returned by `generate_dims_coords` has length
`max(len(shape), len(dims))`; when the supplied dims list is not longer than
`shape` (so that length is exactly `len(shape)`) and the supplied coords map
has no duplicate keys, the returned coords map has exactly one entry per
name occurring in the returned dims. -/
theorem infer_result_shape_amended (shape : List Nat) (var_name : String)
    (dims? : Option DimList) (coords? : Option Coords)
    (default_dims? : Option (List String)) :
    (generate_dims_coords shape var_name dims? coords? default_dims?).dims.length
        = max shape.length (dims?.getD []).length ∧
      ((dims?.getD []).length ≤ shape.length →
        (akeys (coords?.getD [])).Nodup →
        (∀ k, k ∈ akeys
            (generate_dims_coords shape var_name dims? coords? default_dims?).coords
          ↔ some k ∈
            (generate_dims_coords shape var_name dims? coords? default_dims?).dims) ∧
        (akeys
          (generate_dims_coords shape var_name dims? coords?
            default_dims?).coords).Nodup) := by
  have hdims : (generate_dims_coords shape var_name dims? coords? default_dims?).dims
      = (gdcLoop var_name shape 0 (dims?.getD []) (coords?.getD [])).1 := by
    simp only [generate_dims_coords]
  have hcoords :
      (generate_dims_coords shape var_name dims? coords? default_dims?).coords
      = (gdcLoop var_name shape 0 (dims?.getD []) (coords?.getD [])).2.filter
          (fun p => decide (some p.1 ∈
            (gdcLoop var_name shape 0 (dims?.getD []) (coords?.getD [])).1)) := by
    simp only [generate_dims_coords]
  have hlength := gdcLoop_length var_name shape 0 (dims?.getD [])
    (coords?.getD []) (Nat.zero_le _)
  have hkeysfilter : akeys
      ((gdcLoop var_name shape 0 (dims?.getD []) (coords?.getD [])).2.filter
        (fun p => decide (some p.1 ∈
          (gdcLoop var_name shape 0 (dims?.getD []) (coords?.getD [])).1)))
      = (akeys (gdcLoop var_name shape 0 (dims?.getD []) (coords?.getD [])).2).filter
          (fun k => decide (some k ∈
            (gdcLoop var_name shape 0 (dims?.getD []) (coords?.getD [])).1)) := by
    exact akeys_filter_key _
      (fun k => decide (some k ∈
        (gdcLoop var_name shape 0 (dims?.getD []) (coords?.getD [])).1))
  refine ⟨?_, ?_⟩
  · rw [hdims, hlength]
    omega
  · intro hlen hnd
    have hcover := gdcLoop_cover var_name shape 0 (dims?.getD [])
      (coords?.getD []) (Nat.zero_le _) (by omega) (by intro i hi; omega)
    refine ⟨?_, ?_⟩
    · intro k
      rw [hcoords, hdims, hkeysfilter]
      constructor
      · intro hk
        exact of_decide_eq_true (List.mem_filter.mp hk).2
      · intro hk
        apply List.mem_filter.mpr
        refine ⟨?_, decide_eq_true hk⟩
        rcases (mem_iff_exists_getD _ (some k) none).mp hk with ⟨i, hi, hg⟩
        rcases hcover i hi with ⟨k', hk'1, hk'2⟩
        rw [hg] at hk'1
        have : k = k' := Option.some.inj hk'1
        subst this
        exact (alookup_isSome_iff_mem_akeys _ k).mp hk'2
    · rw [hcoords, hkeysfilter]
      exact List.Nodup.filter _
        (gdcLoop_nodup_keys var_name shape 0 (dims?.getD [])
          (coords?.getD []) hnd)

theorem infer_result_shape_amended_witness :
    ((generate_dims_coords [2] "x" (some [some "a", some "b"]) none
          none).dims.length
        = max ([2] : List Nat).length
            ((some [some "a", some "b"] : Option DimList).getD []).length) ∧
      ((some [some "a"] : Option DimList).getD []).length ≤
        ([2, 3] : List Nat).length ∧
      (akeys ((some [("c", [(5 : Int)])] : Option Coords).getD [])).Nodup ∧
      ((∀ k, k ∈ akeys (generate_dims_coords [2, 3] "x" (some [some "a"])
            (some [("c", [(5 : Int)])]) none).coords
        ↔ some k ∈ (generate_dims_coords [2, 3] "x" (some [some "a"])
            (some [("c", [(5 : Int)])]) none).dims) ∧
      (akeys (generate_dims_coords [2, 3] "x" (some [some "a"])
          (some [("c", [(5 : Int)])]) none).coords).Nodup) :=
  ⟨(infer_result_shape_amended [2] "x" (some [some "a", some "b"]) none
      none).1,
    by decide, by decide,
    (infer_result_shape_amended [2, 3] "x" (some [some "a"])
      (some [("c", [(5 : Int)])]) none).2 (by decide) (by decide)⟩

theorem gdcLoop_cons (var_name : String) (l : Nat) (rest : List Nat)
    (idx : Nat) (dims : DimList) (coords : Coords) :
    gdcLoop var_name (l :: rest) idx dims coords =
      gdcLoop var_name rest (idx + 1) (gdcStepDims var_name idx dims)
        (gdcStepCoords l (gdcStepDims var_name idx dims) idx coords) := rfl

theorem set_getD_self {α : Type} (l : List α) (i : Nat) (d : α)
    (h : i < l.length) : l.set i (l.getD i d) = l := by
  induction l generalizing i with
  | nil => simp at h
  | cons a rest ih =>
    cases i with
    | zero => rfl
    | succ i =>
      simp only [List.length_cons] at h
      simp only [List.set_cons_succ, List.getD_cons_succ]
      rw [ih i (by omega)]

/-- The store run of the loop only rewrites the referenced cells, with the
pure loop's results. -/
theorem gdcLoopSt_eq (var_name : String) :
    ∀ (S : List Nat) (idx rd rc : Nat) (σd : List DimList)
      (σc : List Coords), rd < σd.length → rc < σc.length →
      gdcLoopSt var_name S idx rd rc σd σc =
        (σd.set rd (gdcLoop var_name S idx (σd.getD rd []) (σc.getD rc [])).1,
         σc.set rc
           (gdcLoop var_name S idx (σd.getD rd []) (σc.getD rc [])).2) := by
  intro S
  induction S with
  | nil =>
    intro idx rd rc σd σc hrd hrc
    simp only [gdcLoopSt, gdcLoop]
    rw [set_getD_self _ _ _ hrd, set_getD_self _ _ _ hrc]
  | cons l rest ih =>
    intro idx rd rc σd σc hrd hrc
    rw [gdcLoopSt]
    have hσd' : (σd.set rd (gdcStepDims var_name idx (σd.getD rd []))).getD
        rd [] = gdcStepDims var_name idx (σd.getD rd []) :=
      getD_set_self _ _ _ _ hrd
    rw [hσd']
    rw [ih (idx + 1) rd rc _ _ (by rw [List.length_set]; exact hrd)
      (by rw [List.length_set]; exact hrc)]
    rw [hσd']
    have hσc' : ((σc.set rc (gdcStepCoords l
        (gdcStepDims var_name idx (σd.getD rd [])) idx
        (σc.getD rc [])))).getD rc [] =
        gdcStepCoords l (gdcStepDims var_name idx (σd.getD rd [])) idx
          (σc.getD rc []) := getD_set_self _ _ _ _ hrc
    rw [hσc']
    rw [List.set_set, List.set_set]
    rw [gdcLoop_cons]

/-- C8: `generate_dims_coords` never mutates its caller's inputs — after
the store run, the caller's `dims` object and `coords` object hold exactly
the values they held before the call (every write went to the fresh deep
copies), while the computed result agrees with the pure
`generate_dims_coords` applied to the input values. -/
theorem generate_inputs_not_mutated (shape : List Nat) (var_name : String)
    (rd rc : Nat) (σd : List DimList) (σc : List Coords)
    (default_dims? : Option (List String))
    (hrd : rd < σd.length) (hrc : rc < σc.length) :
    (generate_dims_coords_st shape var_name rd rc σd σc
        default_dims?).1.getD rd [] = σd.getD rd [] ∧
      (generate_dims_coords_st shape var_name rd rc σd σc
        default_dims?).2.1.getD rc [] = σc.getD rc [] ∧
      (generate_dims_coords_st shape var_name rd rc σd σc
        default_dims?).2.2 =
        generate_dims_coords shape var_name (some (σd.getD rd []))
          (some (σc.getD rc [])) default_dims? := by
  have hrd' : rd < (σd ++ [σd.getD rd []]).length := by
    rw [List.length_append]
    simp
    omega
  have hrc' : rc < (σc ++ [σc.getD rc []]).length := by
    rw [List.length_append]
    simp
    omega
  have hloop := gdcLoopSt_eq var_name shape 0 σd.length σc.length
    (σd ++ [σd.getD rd []]) (σc ++ [σc.getD rc []])
    (by rw [List.length_append]; simp) (by rw [List.length_append]; simp)
  have hgd : (σd ++ [σd.getD rd []]).getD σd.length [] = σd.getD rd [] :=
    getD_append_self_length σd _ []
  have hgc : (σc ++ [σc.getD rc []]).getD σc.length [] = σc.getD rc [] :=
    getD_append_self_length σc _ []
  rw [hgd, hgc] at hloop
  have hrdne : rd ≠ σd.length := by omega
  have hrcne : rc ≠ σc.length := by omega
  refine ⟨?_, ?_, ?_⟩
  · show ((gdcLoopSt var_name shape 0 σd.length σc.length
        (σd ++ [σd.getD rd []]) (σc ++ [σc.getD rc []])).1).getD rd []
      = σd.getD rd []
    rw [hloop]
    rw [getD_set_ne _ _ _ _ _ hrdne]
    exact getD_append_lt σd _ rd [] hrd
  · show ((gdcLoopSt var_name shape 0 σd.length σc.length
        (σd ++ [σd.getD rd []]) (σc ++ [σc.getD rc []])).2).getD rc []
      = σc.getD rc []
    rw [hloop]
    rw [getD_set_ne _ _ _ _ _ hrcne]
    exact getD_append_lt σc _ rc [] hrc
  · show GDC.mk
        ((gdcLoopSt var_name shape 0 σd.length σc.length
          (σd ++ [σd.getD rd []]) (σc ++ [σc.getD rc []])).1.getD σd.length [])
        (((gdcLoopSt var_name shape 0 σd.length σc.length
          (σd ++ [σd.getD rd []]) (σc ++ [σc.getD rc []])).2.getD σc.length
            []).filter (fun p => decide (some p.1 ∈
          (gdcLoopSt var_name shape 0 σd.length σc.length
            (σd ++ [σd.getD rd []])
            (σc ++ [σc.getD rc []])).1.getD σd.length [])))
        (if shape.length < ((σd.getD rd []).filter
            (fun d => decide
              (d ∉ (default_dims?.getD []).map some))).length then
          [Warn.moreDims]
        else []) =
      generate_dims_coords shape var_name (some (σd.getD rd []))
        (some (σc.getD rc [])) default_dims?
    rw [hloop]
    have h1 : ((σd ++ [σd.getD rd []]).set σd.length
        (gdcLoop var_name shape 0 (σd.getD rd [])
          (σc.getD rc [])).1).getD σd.length [] =
        (gdcLoop var_name shape 0 (σd.getD rd []) (σc.getD rc [])).1 :=
      getD_set_self _ _ _ _ (by rw [List.length_append]; simp)
    have h2 : ((σc ++ [σc.getD rc []]).set σc.length
        (gdcLoop var_name shape 0 (σd.getD rd [])
          (σc.getD rc [])).2).getD σc.length [] =
        (gdcLoop var_name shape 0 (σd.getD rd []) (σc.getD rc [])).2 :=
      getD_set_self _ _ _ _ (by rw [List.length_append]; simp)
    rw [h1, h2]
    simp only [generate_dims_coords, Option.getD_some]

theorem generate_inputs_not_mutated_witness :
    (0 : Nat) < ([[some "a"]] : List DimList).length ∧
      (0 : Nat) < ([[("c", [(7 : Int)])]] : List Coords).length ∧
      ((generate_dims_coords_st [2] "x" 0 0 [[some "a"]]
          [[("c", [(7 : Int)])]] none).1.getD 0 [] =
          ([[some "a"]] : List DimList).getD 0 [] ∧
        (generate_dims_coords_st [2] "x" 0 0 [[some "a"]]
          [[("c", [(7 : Int)])]] none).2.1.getD 0 [] =
          ([[("c", [(7 : Int)])]] : List Coords).getD 0 [] ∧
        (generate_dims_coords_st [2] "x" 0 0 [[some "a"]]
          [[("c", [(7 : Int)])]] none).2.2 =
          generate_dims_coords [2] "x"
            (some (([[some "a"]] : List DimList).getD 0 []))
            (some (([[("c", [(7 : Int)])]] : List Coords).getD 0 [])) none) :=
  ⟨by decide, by decide,
    generate_inputs_not_mutated [2] "x" 0 0 [[some "a"]]
      [[("c", [(7 : Int)])]] none (by decide) (by decide)⟩

/-- What a successful run of the `dict_to_dataset` loop guarantees,
relative to an accumulator whose keys are disjoint from the remaining
variable names. -/
theorem assembleVars_ok (coords? : Option Coords)
    (dims : List (String × DimList)) :
    ∀ (data : List (String × List Nat)) (acc : List (String × LabeledArray))
      (ws : List Warn) (vars : List (String × LabeledArray)) (ws' : List Warn),
      (∀ p ∈ data, p.1 ∉ akeys acc) →
      (data.map Prod.fst).Nodup →
      assembleVars coords? dims data acc ws = (.ok vars, ws') →
      vars.map Prod.fst = acc.map Prod.fst ++ data.map Prod.fst ∧
        (∀ i, i < acc.length →
          vars.getD i ("", ⟨[], [], []⟩) = acc.getD i ("", ⟨[], [], []⟩)) ∧
        ∀ i, i < data.length →
          ∃ la, (numpy_to_data_array (data.getD i ("", [])).2
              (data.getD i ("", [])).1 coords?
              (alookup dims (data.getD i ("", [])).1)).1 = .ok la ∧
            vars.getD (acc.length + i) ("", ⟨[], [], []⟩) =
              ((data.getD i ("", [])).1, la) := by
  intro data
  induction data with
  | nil =>
    intro acc ws vars ws' _ _ h
    simp only [assembleVars, Prod.mk.injEq, Except.ok.injEq] at h
    obtain ⟨h1, _⟩ := h
    subst h1
    refine ⟨by simp, fun i _ => rfl, fun i hi => by simp at hi⟩
  | cons entry rest ih =>
    intro acc ws vars ws' hfresh hnd h
    obtain ⟨key, values⟩ := entry
    rw [assembleVars] at h
    cases hn : numpy_to_data_array values key coords? (alookup dims key) with
    | mk res wn =>
      rw [hn] at h
      cases res with
      | error e =>
        simp only [Prod.mk.injEq] at h
        exact absurd h.1 (by simp)
      | ok la =>
        simp only at h
        have hkeyfresh : key ∉ akeys acc :=
          hfresh (key, values) (List.mem_cons_self _ _)
        have hnone : alookup acc key = none := by
          cases hl : alookup acc key with
          | none => rfl
          | some x =>
            exact absurd ((alookup_isSome_iff_mem_akeys acc key).mp
              (by rw [hl]; rfl)) hkeyfresh
        have hset : aset acc key la = acc ++ [(key, la)] :=
          aset_of_not_mem acc key la hnone
        rw [hset] at h
        simp only [List.map_cons, List.nodup_cons] at hnd
        have hfresh' : ∀ p ∈ rest, p.1 ∉ akeys (acc ++ [(key, la)]) := by
          intro p hp hmem
          rw [akeys, List.map_append] at hmem
          rcases List.mem_append.mp hmem with hm | hm
          · exact hfresh p (List.mem_cons_of_mem _ hp) hm
          · simp only [List.map_cons, List.map_nil, List.mem_singleton] at hm
            exact hnd.1 (hm ▸ List.mem_map.mpr ⟨p, hp, rfl⟩)
        obtain ⟨ihmap, ihacc, ihdata⟩ :=
          ih (acc ++ [(key, la)]) (ws ++ wn) vars ws' hfresh' hnd.2 h
        refine ⟨?_, ?_, ?_⟩
        · rw [ihmap]
          simp [List.map_append]
        · intro i hi
          rw [ihacc i (by rw [List.length_append]; simp; omega)]
          exact getD_append_lt acc _ i _ hi
        · intro i hi
          cases i with
          | zero =>
            refine ⟨la, ?_, ?_⟩
            · simp only [List.getD_cons_zero]
              rw [hn]
            · have := ihacc acc.length (by rw [List.length_append]; simp)
              rw [Nat.add_zero, this, getD_append_self_length]
              simp
          | succ i =>
            simp only [List.length_cons] at hi
            rcases ihdata i (by omega) with ⟨la', h1, h2⟩
            refine ⟨la', ?_, ?_⟩
            · simpa [List.getD_cons_succ] using h1
            · rw [List.length_append] at h2
              simp only [List.length_cons, List.length_nil] at h2
              have harith : acc.length + (i + 1) = acc.length + 1 + i := by
                omega
              rw [harith]
              simpa [List.getD_cons_succ] using h2

/-- C9: `dict_to_dataset` labels each `(name, values)` entry of `data`
exactly once, with `var_name=name`, the single shared coords map, and the
per-variable `dims.get(name)` (None when absent), and the dataset's
variable mapping preserves the insertion order of `data`. -/
theorem dataset_per_entry_order (now : String)
    (data : List (String × List Nat)) (attrs? : Option Attrs)
    (library? : Option Library) (coords? : Option Coords)
    (dims? : Option (List (String × DimList))) (ds : Dataset) (w : List Warn)
    (hnd : (data.map Prod.fst).Nodup)
    (h : dict_to_dataset now data attrs? library? coords? dims? =
      (.ok ds, w)) :
    ds.data_vars.map Prod.fst = data.map Prod.fst ∧
      ∀ i, i < data.length →
        ∃ la, (numpy_to_data_array (data.getD i ("", [])).2
            (data.getD i ("", [])).1 coords?
            (alookup (dims?.getD []) (data.getD i ("", [])).1)).1 = .ok la ∧
          ds.data_vars.getD i ("", ⟨[], [], []⟩) =
            ((data.getD i ("", [])).1, la) := by
  rw [dict_to_dataset] at h
  cases ha : assembleVars coords? (dims?.getD []) data [] [] with
  | mk res ws =>
    rw [ha] at h
    cases res with
    | error e =>
      simp only [Prod.mk.injEq] at h
      exact absurd h.1 (by simp)
    | ok vars =>
      simp only [Prod.mk.injEq, Except.ok.injEq] at h
      obtain ⟨h1, _⟩ := h
      obtain ⟨hmap, _, hdata⟩ := assembleVars_ok coords? (dims?.getD []) data
        [] [] vars ws (by intro p _ hm; simp [akeys] at hm) hnd ha
      subst h1
      exact ⟨by simpa using hmap, by simpa using hdata⟩

theorem dataset_per_entry_order_witness :
    ((sampleData.map Prod.fst).Nodup) ∧
      ∃ ds w, dict_to_dataset "T" sampleData none none none none =
          (.ok ds, w) ∧
        (ds.data_vars.map Prod.fst = sampleData.map Prod.fst ∧
          ∀ i, i < sampleData.length →
            ∃ la, (numpy_to_data_array (sampleData.getD i ("", [])).2
                (sampleData.getD i ("", [])).1 none
                (alookup ((none : Option (List (String × DimList))).getD [])
                  (sampleData.getD i ("", [])).1)).1 = .ok la ∧
              ds.data_vars.getD i ("", ⟨[], [], []⟩) =
                ((sampleData.getD i ("", [])).1, la)) := by
  refine ⟨by decide, ?_⟩
  cases hds : dict_to_dataset "T" sampleData none none none none with
  | mk res w =>
    cases res with
    | error e =>
      obtain ⟨d, hdok⟩ : ∃ d,
          (dict_to_dataset "T" sampleData none none none none).1 = .ok d :=
        ⟨_, rfl⟩
      rw [hds] at hdok
      exact absurd hdok (by simp)
    | ok ds =>
      exact ⟨ds, w, rfl,
        dataset_per_entry_order "T" sampleData none none none none ds w
          (by decide) hds⟩

/-! ## Claim C10 -/

theorem alookup_dictUpdate_not_mem {β : Type} (e : List (String × β)) :
    ∀ (d : List (String × β)) (k : String), k ∉ akeys e →
      alookup (dictUpdate d e) k = alookup d k := by
  induction e with
  | nil => intro d k _; rfl
  | cons p rest ih =>
    intro d k hk
    rw [akeys_cons] at hk
    have hk1 : k ≠ p.1 := fun hh => hk (by rw [hh]; exact List.mem_cons_self _ _)
    have hk2 : k ∉ akeys rest := fun hh => hk (List.mem_cons_of_mem _ hh)
    show alookup (dictUpdate (aset d p.1 p.2) rest) k = alookup d k
    rw [ih (aset d p.1 p.2) k hk2, alookup_aset_ne d p.1 k p.2 hk1]

theorem alookup_dictUpdate_mem {β : Type} (e : List (String × β)) :
    ∀ (d : List (String × β)) (k : String), (akeys e).Nodup → k ∈ akeys e →
      alookup (dictUpdate d e) k = alookup e k := by
  induction e with
  | nil => intro d k _ hk; simp [akeys] at hk
  | cons p rest ih =>
    intro d k hnd hk
    rw [akeys_cons, List.nodup_cons] at hnd
    rw [akeys_cons] at hk
    show alookup (dictUpdate (aset d p.1 p.2) rest) k = alookup (p :: rest) k
    by_cases hk1 : k = p.1
    · have hknotin : k ∉ akeys rest := by rw [hk1]; exact hnd.1
      rw [alookup_dictUpdate_not_mem rest (aset d p.1 p.2) k hknotin, hk1,
        alookup_aset_self, alookup, if_pos rfl]
    · have hk2 : k ∈ akeys rest := by
        rcases List.mem_cons.mp hk with hh | hh
        · exact absurd hh hk1
        · exact hh
      rw [ih (aset d p.1 p.2) k hnd.2 hk2, alookup,
        if_neg (fun hh => hk1 hh.symm)]

theorem mem_akeys_dictUpdate {β : Type} (e : List (String × β)) :
    ∀ (d : List (String × β)) (k : String), k ∈ akeys d →
      k ∈ akeys (dictUpdate d e) := by
  induction e with
  | nil => intro d k hk; exact hk
  | cons p rest ih =>
    intro d k hk
    exact ih (aset d p.1 p.2) k ((mem_akeys_aset d p.1 k p.2).mpr (Or.inl hk))

/-- C10: `make_attrs` always returns a map containing the key
`created_at`; with no library and no caller attrs the result has exactly
the one entry `created_at`; and caller-supplied attrs override the
defaults on any key collision (caller wins). -/
theorem make_attrs_spec :
    (∀ (now : String) (attrs? : Option Attrs) (library? : Option Library),
      "created_at" ∈ akeys (make_attrs now attrs? library?)) ∧
      (∀ now : String, make_attrs now none none = [("created_at", now)]) ∧
      ∀ (now : String) (attrs : Attrs) (library? : Option Library)
        (k : String), (akeys attrs).Nodup → k ∈ akeys attrs →
        alookup (make_attrs now (some attrs) library?) k =
          alookup attrs k := by
  have hsome : ∀ (now : String) (a : Attrs) (lib? : Option Library),
      make_attrs now (some a) lib? = dictUpdate (make_attrs now none lib?) a :=
    fun _ _ _ => rfl
  have hdef : ∀ (now : String) (lib? : Option Library),
      "created_at" ∈ akeys (make_attrs now none lib?) := by
    intro now lib?
    cases lib? with
    | none => simp [make_attrs, akeys]
    | some library =>
      obtain ⟨lname, ldist, lattr⟩ := library
      have h0 : "created_at" ∈ akeys ([("created_at", now)] : Attrs) := by
        simp [akeys]
      have h1 := (mem_akeys_aset [("created_at", now)] "inference_library"
        "created_at" lname).mpr (Or.inl h0)
      cases ldist with
      | some version =>
        simp only [make_attrs]
        exact (mem_akeys_aset _ "inference_library_version" "created_at"
          version).mpr (Or.inl h1)
      | none =>
        cases lattr with
        | some version =>
          simp only [make_attrs]
          exact (mem_akeys_aset _ "inference_library_version" "created_at"
            version).mpr (Or.inl h1)
        | none =>
          simp only [make_attrs]
          exact h1
  refine ⟨?_, fun now => rfl, ?_⟩
  · intro now attrs? library?
    cases attrs? with
    | none => exact hdef now library?
    | some attrs =>
      rw [hsome]
      exact mem_akeys_dictUpdate attrs _ "created_at" (hdef now library?)
  · intro now attrs library? k hnd hk
    rw [hsome]
    exact alookup_dictUpdate_mem attrs _ k hnd hk

theorem make_attrs_spec_witness :
    (akeys ([("created_at", "CALLER"), ("note", "n")] : Attrs)).Nodup ∧
      "created_at" ∈ akeys ([("created_at", "CALLER"), ("note", "n")] : Attrs) ∧
      alookup (make_attrs "T"
          (some [("created_at", "CALLER"), ("note", "n")]) none)
          "created_at" =
        alookup ([("created_at", "CALLER"), ("note", "n")] : Attrs)
          "created_at" :=
  ⟨by decide, by decide,
    make_attrs_spec.2.2 "T" [("created_at", "CALLER"), ("note", "n")] none
      "created_at" (by decide) (by decide)⟩

end Arviz

